import Mathlib

/-
A verification development for the carcara proof checker and elaborator.

The Rust sources are embedded shallowly: pure functions become Lean
functions, in-place mutation becomes explicit state passing, `Result`
values become `Except`, `Option` stays `Option`, and panics
(`assert!`, `unwrap`, `todo!`) become explicit error values.  `Rc<T>`
handles compare by identity in the source, and the hash-consing
contract of the term pool makes identity equality coincide with
structural equality, so handles are embedded as plain structural
values with decidable equality.

Types whose Rust definitions live outside the embedded sources (the
term model, the linear proof commands, the inner `Elaborator`) are
modelled from the specification; their doc comments say so explicitly.
-/

namespace Carcara

/-- Modelled from the spec: the closed tagged set of operators
(`Not, Implies, And, Or, Xor, Equals, Distinct, Ite, Add, Sub, Mult,
IntDiv, RealDiv, LessThan, GreaterThan, LessEq, GreaterEq`).  The Rust
`Operator` enum is not among the embedded source files. -/
inductive Operator where
  | notOp | implies | andOp | orOp | xorOp | equals | distinct | iteOp
  | add | sub | mult | intDiv | realDiv | lessThan | greaterThan | lessEq | greaterEq
deriving DecidableEq, Repr

/-- Modelled from the spec: terminal constants (integer numeral,
arbitrary-precision rational, string literal). -/
inductive ConstKind where
  | int (n : Int)
  | rat (num : Int) (den : Nat)
  | str (s : String)
deriving DecidableEq, Repr

/-- Modelled from the spec: the head of a sort-term
(`Bool`, `Int`, `Real`, `String`, or `Atom(name, params)`). -/
inductive SortKind where
  | bool | int | real | string | atom (name : String)
deriving DecidableEq, Repr

/-- Modelled from the spec: the binder of a binding construct
(`Quant(Forall|Exists)`, `Choice`, `Let`, `Lambda`). -/
inductive BinderKind where
  | forallB | existsB | choiceB | lambdaB | letB
deriving DecidableEq, Repr

/-- Modelled from the spec: an immutable tagged term value, one of a
terminal constant, a typed variable (symbol paired with its
sort-term), a sort-term, an operator application with an ordered
argument list, or a binding construct whose bindings are ordered
`(symbol, term)` pairs.  The Rust `Term` type is not among the
embedded source files. -/
inductive Term where
  | const (c : ConstKind)
  | var (name : String) (sort : Term)
  | sortT (k : SortKind) (params : List Term)
  | op (o : Operator) (args : List Term)
  | binder (b : BinderKind) (bindings : List (String × Term)) (body : Term)

mutual

def Term.beq : Term → Term → Bool
  | .const c, .const c' => decide (c = c')
  | .var n s, .var n' s' => decide (n = n') && Term.beq s s'
  | .sortT k ps, .sortT k' ps' => decide (k = k') && Term.beqList ps ps'
  | .op o as, .op o' as' => decide (o = o') && Term.beqList as as'
  | .binder b bs body, .binder b' bs' body' =>
      decide (b = b') && Term.beqBindings bs bs' && Term.beq body body'
  | _, _ => false

def Term.beqList : List Term → List Term → Bool
  | [], [] => true
  | a :: as, b :: bs => Term.beq a b && Term.beqList as bs
  | _, _ => false

def Term.beqBindings : List (String × Term) → List (String × Term) → Bool
  | [], [] => true
  | (n, a) :: as, (n', b) :: bs =>
      decide (n = n') && Term.beq a b && Term.beqBindings as bs
  | _, _ => false

end

mutual

def Term.beq_eq : ∀ (a b : Term), Term.beq a b = true ↔ a = b
  | .const _, .const _ => by simp [Term.beq]
  | .const _, .var _ _ => by simp [Term.beq]
  | .const _, .sortT _ _ => by simp [Term.beq]
  | .const _, .op _ _ => by simp [Term.beq]
  | .const _, .binder _ _ _ => by simp [Term.beq]
  | .var _ _, .const _ => by simp [Term.beq]
  | .var _ s, .var _ s' => by simp [Term.beq, Term.beq_eq s s']
  | .var _ _, .sortT _ _ => by simp [Term.beq]
  | .var _ _, .op _ _ => by simp [Term.beq]
  | .var _ _, .binder _ _ _ => by simp [Term.beq]
  | .sortT _ _, .const _ => by simp [Term.beq]
  | .sortT _ _, .var _ _ => by simp [Term.beq]
  | .sortT _ ps, .sortT _ ps' => by simp [Term.beq, Term.beqList_eq ps ps']
  | .sortT _ _, .op _ _ => by simp [Term.beq]
  | .sortT _ _, .binder _ _ _ => by simp [Term.beq]
  | .op _ _, .const _ => by simp [Term.beq]
  | .op _ _, .var _ _ => by simp [Term.beq]
  | .op _ _, .sortT _ _ => by simp [Term.beq]
  | .op _ as, .op _ as' => by simp [Term.beq, Term.beqList_eq as as']
  | .op _ _, .binder _ _ _ => by simp [Term.beq]
  | .binder _ _ _, .const _ => by simp [Term.beq]
  | .binder _ _ _, .var _ _ => by simp [Term.beq]
  | .binder _ _ _, .sortT _ _ => by simp [Term.beq]
  | .binder _ _ _, .op _ _ => by simp [Term.beq]
  | .binder _ bs body, .binder _ bs' body' => by
      simp [Term.beq, Term.beq_eq body body', Term.beqBindings_eq bs bs', and_assoc]

def Term.beqList_eq : ∀ (as bs : List Term), Term.beqList as bs = true ↔ as = bs
  | [], [] => by simp [Term.beqList]
  | [], _ :: _ => by simp [Term.beqList]
  | _ :: _, [] => by simp [Term.beqList]
  | a :: as, b :: bs => by
      simp [Term.beqList, Term.beq_eq a b, Term.beqList_eq as bs]

def Term.beqBindings_eq :
    ∀ (as bs : List (String × Term)), Term.beqBindings as bs = true ↔ as = bs
  | [], [] => by simp [Term.beqBindings]
  | [], _ :: _ => by simp [Term.beqBindings]
  | _ :: _, [] => by simp [Term.beqBindings]
  | (n, a) :: as, (n', b) :: bs => by
      simp [Term.beqBindings, Term.beq_eq a b, Term.beqBindings_eq as bs, and_assoc]

end

instance Term.instDecEq : DecidableEq Term :=
  fun a b => decidable_of_iff (Term.beq a b = true) (Term.beq_eq a b)

/-- `build_term!(pool, (= a b))`: an equality term.  Interning through
the pool is the identity on structural values in this embedding. -/
def eqT (a b : Term) : Term := Term.op .equals [a, b]

/-- `build_term!(pool, (not a))`. -/
def notT (a : Term) : Term := Term.op .notOp [a]

/-- Modelled from the spec: the preseeded `Bool` sort of the term pool. -/
def boolSortT : Term := Term.sortT .bool []

/-- Modelled from the spec: the preseeded boolean constants `true` and
`false` of the term pool (`pool.bool_constant(b)`). -/
def boolConstant (b : Bool) : Term :=
  Term.var (if b then "true" else "false") boolSortT

/-- `Rc<Term>::is_bool_true`: whether a term is the `true` constant. -/
def Term.isBoolTrue (t : Term) : Bool := decide (t = boolConstant true)

/-- `match_term!((= a b) = t)`: matches an application of `Equals` to
exactly two arguments and returns them. -/
def matchTermEq (t : Term) : Option (Term × Term) :=
  match t with
  | .op .equals [a, b] => some (a, b)
  | _ => none


/-! ## Lexer (`src/parser/lexer.rs`)

The `Lexer<R>` struct reads characters line by line from a buffered
reader.  The embedding flattens the reader into a single list of
characters (lines concatenated with their terminating newlines, which
is exactly the character sequence the lexer consumes); the I/O error
channel of `BufRead` cannot fail on an in-memory input and is dropped.
Panics (`todo!()` and `.unwrap()`) become explicit `LexError` values.
The `u64` width of numerals is not modelled (no claim depends on
numeric overflow), so numerals are `Nat` and decimals are `Rat`. -/

/-- `Reserved`: the reserved words of the surface syntax. -/
inductive Reserved where
  | underscore | bang | asR | letR | existsR | forallR | matchR
  | choice | cl | assumeR | stepR | anchor | defineFun
deriving DecidableEq, Repr

/-- `Token`: the tokens produced by the lexer. -/
inductive Token where
  | openParen
  | closeParen
  | symbol (s : String)
  | keyword (s : String)
  | numeral (n : Nat)
  | decimal (q : Rat)
  | stringTok (s : String)
  | reservedWord (r : Reserved)
  | eof
deriving DecidableEq, Repr

/-- `ParserError` variants reachable from the lexer, plus explicit
values for the panics in `next_token` (`todo!()`) and
`read_number_with_base` (`u64::from_str_radix("", _).unwrap()`). -/
inductive LexError where
  | backslashInQuotedSymbol
  | eofInQuotedSymbol
  | eofInString
  | leadingZero (s : String)
  | unexpectedChar (expected : List Char) (got : Option Char)
  | panicTodo
  | panicEmptyRadix
deriving DecidableEq, Repr

/-- `Lexer::is_symbol_character`. -/
def isSymbolCharacter (c : Char) : Bool :=
  (c.isAlpha && c.toNat < 128) || c.isDigit ||
    c ∈ ['+', '-', '/', '*', '=', '%', '?', '!', '.', '$', '_', '~', '&', '^', '<', '>', '@']

/-- `Lexer::match_reserved_symbol`. -/
def matchReservedSymbol (s : String) : Option Reserved :=
  if s = "_" then some .underscore
  else if s = "!" then some .bang
  else if s = "as" then some .asR
  else if s = "let" then some .letR
  else if s = "exists" then some .existsR
  else if s = "forall" then some .forallR
  else if s = "match" then some .matchR
  else if s = "choice" then some .choice
  else if s = "cl" then some .cl
  else if s = "assume" then some .assumeR
  else if s = "step" then some .stepR
  else if s = "anchor" then some .anchor
  else if s = "define-fun" then some .defineFun
  else none

/-- `next_line` as seen from `consume_whitespace`: a `;` discards the
rest of the current line (up to and including its newline). -/
def dropRestOfLine (s : List Char) : List Char :=
  (s.dropWhile (· ≠ '
')).drop 1

/-- `consume_whitespace`: discard whitespace and `;` line comments.
The fuel argument only bounds the number of comment lines skipped;
`consumeWhitespace` below instantiates it so that it never runs out. -/
def consumeWsGo : Nat → List Char → List Char
  | 0, s => s
  | fuel + 1, s =>
    let s := s.dropWhile Char.isWhitespace
    match s with
    | ';' :: rest => consumeWsGo fuel (dropRestOfLine rest)
    | _ => s

def consumeWhitespace (s : List Char) : List Char :=
  consumeWsGo (s.length + 1) s

/-- `Lexer::read_simple_symbol`. -/
def readSimpleSymbol (s : List Char) : Token × List Char :=
  let sym := (s.takeWhile isSymbolCharacter).asString
  let rest := s.dropWhile isSymbolCharacter
  match matchReservedSymbol sym with
  | some r => (.reservedWord r, rest)
  | none => (.symbol sym, rest)

/-- `Lexer::read_quoted_symbol` (after the opening `|` was consumed). -/
def readQuotedSymbol (s : List Char) : Except LexError (Token × List Char) :=
  let sym := s.takeWhile (fun c => c ≠ '|' && c ≠ '\\')
  match s.dropWhile (fun c => c ≠ '|' && c ≠ '\\') with
  | '\\' :: _ => .error .backslashInQuotedSymbol
  | '|' :: rest => .ok (.symbol sym.asString, rest)
  | _ => .error .eofInQuotedSymbol

/-- `Lexer::read_keyword` (after the leading `:` was consumed). -/
def readKeyword (s : List Char) : Token × List Char :=
  ((.keyword (s.takeWhile isSymbolCharacter).asString), s.dropWhile isSymbolCharacter)

/-- `char::is_digit(base)` for the two bases the lexer uses. -/
def isDigitInBase (base : Nat) (c : Char) : Bool :=
  if base = 2 then c = '0' || c = '1'
  else c.isDigit || ('a' ≤ c && c ≤ 'f') || ('A' ≤ c && c ≤ 'F')

def digitValue (c : Char) : Nat :=
  if c.isDigit then c.toNat - '0'.toNat
  else if 'a' ≤ c && c ≤ 'f' then c.toNat - 'a'.toNat + 10
  else if 'A' ≤ c && c ≤ 'F' then c.toNat - 'A'.toNat + 10
  else 0

/-- `u64::from_str_radix` on a digit string (width not modelled). -/
def natFromDigits (base : Nat) (ds : List Char) : Nat :=
  ds.foldl (fun acc c => acc * base + digitValue c) 0

/-- `Lexer::read_number_with_base` (after the leading `#` was
consumed).  On an empty digit string the source unwraps the `Err` of
`from_str_radix` and panics. -/
def readNumberWithBase (s : List Char) : Except LexError (Token × List Char) :=
  match s with
  | 'b' :: r =>
    let ds := r.takeWhile (isDigitInBase 2)
    if ds.isEmpty then .error .panicEmptyRadix
    else .ok (.numeral (natFromDigits 2 ds), r.dropWhile (isDigitInBase 2))
  | 'x' :: r =>
    let ds := r.takeWhile (isDigitInBase 16)
    if ds.isEmpty then .error .panicEmptyRadix
    else .ok (.numeral (natFromDigits 16 ds), r.dropWhile (isDigitInBase 16))
  | c :: _ => .error (.unexpectedChar ['b', 'x'] (some c))
  | [] => .error (.unexpectedChar ['b', 'x'] none)

/-- `Lexer::read_number`. -/
def readNumber (s : List Char) : Except LexError (Token × List Char) :=
  let intPart := s.takeWhile Char.isDigit
  let rest := s.dropWhile Char.isDigit
  if intPart.length > 1 && intPart.headD ' ' = '0' then
    .error (.leadingZero intPart.asString)
  else
    match rest with
    | '.' :: r =>
      let fracPart := r.takeWhile Char.isDigit
      let rest' := r.dropWhile Char.isDigit
      let denom : Nat := 10 ^ fracPart.length
      let numer : Nat := natFromDigits 10 (intPart ++ fracPart)
      .ok (.decimal (mkRat numer denom), rest')
    | _ => .ok (.numeral (natFromDigits 10 intPart), rest)

/-- `Lexer::read_string` (after the opening `"` was consumed): `""`
encodes a literal `"`, EOF inside the string fails.  The fuel bounds
the number of `""` escapes; `readString` instantiates it so that it
never runs out. -/
def readStringGo : Nat → String → List Char → Except LexError (Token × List Char)
  | 0, acc, s => .ok (.stringTok acc, s)
  | fuel + 1, acc, s =>
    let chunk := s.takeWhile (· ≠ '"')
    match s.dropWhile (· ≠ '"') with
    | '"' :: '"' :: rest => readStringGo fuel (acc ++ chunk.asString ++ "\"") rest
    | '"' :: rest => .ok (.stringTok (acc ++ chunk.asString), rest)
    | _ => .error .eofInString

def readString (s : List Char) : Except LexError (Token × List Char) :=
  readStringGo (s.length + 1) "" s

instance instDecEqExcept {e a : Type} [DecidableEq e] [DecidableEq a] :
    DecidableEq (Except e a) := fun x y =>
  match x, y with
  | .error u, .error v =>
    if h : u = v then isTrue (by rw [h]) else isFalse (by simp [h])
  | .ok u, .ok v =>
    if h : u = v then isTrue (by rw [h]) else isFalse (by simp [h])
  | .error _, .ok _ => isFalse (by simp)
  | .ok _, .error _ => isFalse (by simp)

/-- `Lexer::next_token`.  The catch-all arm of the source is
`todo!()`, which panics; it is embedded as the error `panicTodo`. -/
def nextToken (input : List Char) : Except LexError (Token × List Char) :=
  match consumeWhitespace input with
  | '(' :: r => .ok (.openParen, r)
  | ')' :: r => .ok (.closeParen, r)
  | '"' :: r => readString r
  | '|' :: r => readQuotedSymbol r
  | ':' :: r => (fun p => .ok p) (readKeyword r)
  | '#' :: r => readNumberWithBase r
  | c :: r =>
    if c.isDigit then readNumber (c :: r)
    else if isSymbolCharacter c then .ok (readSimpleSymbol (c :: r))
    else .error .panicTodo
  | [] => .ok (.eof, [])


/-! ## Proof nodes (graph representation)

The `ProofNode` type used by the elaborator (with a `depth` field on
steps and plain reference-counted premises) is modelled from the spec:
`Assume{id, term}`, `Step{id, depth, clause, rule, premises, args,
discharge, previous_step?}`, `Subproof{last_step, args,
outbound_premises}`.  Handles are structural values (hash-consing
contract). -/

/-- `ProofArg`: a step argument, either a bare term or a
`(name, term)` assignment. -/
inductive ProofArg where
  | term (t : Term)
  | assign (name : String) (t : Term)
deriving DecidableEq

/-- `AnchorArg`: a subproof argument, either a sorted variable
declaration or an assignment. -/
inductive AnchorArg where
  | sortedVar (name : String) (sort : Term)
  | assign (name : String) (t : Term)
deriving DecidableEq

/-- Modelled from the spec: graph representation of an Alethe proof. -/
inductive ProofNode where
  | assume (id : String) (term : Term)
  | step (id : String) (depth : Nat) (clause : List Term) (rule : String)
      (premises : List ProofNode) (args : List ProofArg)
      (discharge : List ProofNode) (previousStep : Option ProofNode)
  | subproof (lastStep : ProofNode) (args : List AnchorArg)
      (outboundPremises : List ProofNode)

mutual

def ProofNode.beq : ProofNode → ProofNode → Bool
  | .assume i t, .assume i' t' => decide (i = i') && decide (t = t')
  | .step i d c r ps as dis prev, .step i' d' c' r' ps' as' dis' prev' =>
      decide (i = i') && decide (d = d') && decide (c = c') && decide (r = r') &&
        ProofNode.beqList ps ps' && decide (as = as') &&
        ProofNode.beqList dis dis' && ProofNode.beqOpt prev prev'
  | .subproof last as ob, .subproof last' as' ob' =>
      ProofNode.beq last last' && decide (as = as') && ProofNode.beqList ob ob'
  | _, _ => false

def ProofNode.beqList : List ProofNode → List ProofNode → Bool
  | [], [] => true
  | a :: as, b :: bs => ProofNode.beq a b && ProofNode.beqList as bs
  | _, _ => false

def ProofNode.beqOpt : Option ProofNode → Option ProofNode → Bool
  | none, none => true
  | some a, some b => ProofNode.beq a b
  | _, _ => false

end

mutual

def ProofNode.beq_eq : ∀ (a b : ProofNode), ProofNode.beq a b = true ↔ a = b
  | .assume _ _, .assume _ _ => by simp [ProofNode.beq]
  | .assume _ _, .step _ _ _ _ _ _ _ _ => by simp [ProofNode.beq]
  | .assume _ _, .subproof _ _ _ => by simp [ProofNode.beq]
  | .step _ _ _ _ _ _ _ _, .assume _ _ => by simp [ProofNode.beq]
  | .step _ _ _ _ ps _ dis prev, .step _ _ _ _ ps' _ dis' prev' => by
      simp [ProofNode.beq, ProofNode.beqList_eq ps ps', ProofNode.beqList_eq dis dis',
        ProofNode.beqOpt_eq prev prev']
      tauto
  | .step _ _ _ _ _ _ _ _, .subproof _ _ _ => by simp [ProofNode.beq]
  | .subproof _ _ _, .assume _ _ => by simp [ProofNode.beq]
  | .subproof _ _ _, .step _ _ _ _ _ _ _ _ => by simp [ProofNode.beq]
  | .subproof last _ ob, .subproof last' _ ob' => by
      simp [ProofNode.beq, ProofNode.beq_eq last last', ProofNode.beqList_eq ob ob']
      tauto

def ProofNode.beqList_eq :
    ∀ (as bs : List ProofNode), ProofNode.beqList as bs = true ↔ as = bs
  | [], [] => by simp [ProofNode.beqList]
  | [], _ :: _ => by simp [ProofNode.beqList]
  | _ :: _, [] => by simp [ProofNode.beqList]
  | a :: as, b :: bs => by
      simp [ProofNode.beqList, ProofNode.beq_eq a b, ProofNode.beqList_eq as bs]

def ProofNode.beqOpt_eq :
    ∀ (a b : Option ProofNode), ProofNode.beqOpt a b = true ↔ a = b
  | none, none => by simp [ProofNode.beqOpt]
  | none, some _ => by simp [ProofNode.beqOpt]
  | some _, none => by simp [ProofNode.beqOpt]
  | some a, some b => by simp [ProofNode.beqOpt, ProofNode.beq_eq a b]

end

instance ProofNode.instDecEq : DecidableEq ProofNode :=
  fun a b => decidable_of_iff (ProofNode.beq a b = true) (ProofNode.beq_eq a b)

/-- `ProofNode::id`: for subproofs, the id of the last step. -/
def ProofNode.id : ProofNode → String
  | .assume i _ => i
  | .step i _ _ _ _ _ _ _ => i
  | .subproof last _ _ => last.id

/-- `ProofNode::clause`: a unit clause for `assume`, the conclusion
clause for steps, the last step's clause for subproofs. -/
def ProofNode.clause : ProofNode → List Term
  | .assume _ t => [t]
  | .step _ _ c _ _ _ _ _ => c
  | .subproof last _ _ => last.clause

/-- Modelled from the spec: the depth of a proof node.  Steps carry
their depth; a subproof lives one level above its contents; top-level
`assume` commands are at depth 0 (the `ProofNode` used by the
elaborator is not among the embedded source files). -/
def ProofNode.depth : ProofNode → Nat
  | .assume _ _ => 0
  | .step _ d _ _ _ _ _ _ => d
  | .subproof last _ _ => last.depth - 1

/-- `StepNode`: the record carried by `ProofNode::Step`. -/
structure StepNode where
  id : String
  depth : Nat
  clause : List Term
  rule : String
  premises : List ProofNode
  args : List ProofArg
  discharge : List ProofNode
  previousStep : Option ProofNode
deriving DecidableEq

def ProofNode.ofStep (s : StepNode) : ProofNode :=
  .step s.id s.depth s.clause s.rule s.premises s.args s.discharge s.previousStep

/-! ## Transitivity elaboration (`src/carcara/src/elaborator/transitivity.rs`) -/

/-- `CheckerError` variants used by the transitivity rewrite. -/
inductive CheckerError where
  | termOfWrongForm (pattern : String) (t : Term)
  | brokenTransitivityChain (a b : Term)
deriving DecidableEq

/-- The outcome channel of `trans`: either a Rust panic
(`assert_eq!` failure or `.unwrap()` on `None`) or a returned
`CheckerError`. -/
inductive TransError where
  | assertionFailure
  | checker (e : CheckerError)
deriving DecidableEq

/-- `add_symm_step`: build a fresh `symm` step flipping a premise's
unit equality clause.  The source asserts the clause is a unit and
unwraps the equality match; both panics become `assertionFailure`. -/
def addSymmStep (node : ProofNode) : Except TransError ProofNode :=
  match node.clause with
  | [c] =>
    match matchTermEq c with
    | some (a, b) =>
        .ok (.step (node.id ++ ".symm") node.depth [eqT b a] "symm" [node] [] [] none)
    | none => .error .assertionFailure
  | _ => .error .assertionFailure

/-- The `find_map` inside `find_and_trace_chain`: search a suffix of
the premise equalities for the first one touching `t`, returning its
offset, the next chain endpoint, and whether the equality was matched
in the flipped direction.  Within one premise the unflipped direction
is preferred. -/
def findLinkFrom (t : Term) : List (Term × Term) → Option (Nat × Term × Bool)
  | [] => none
  | (a, b) :: rest =>
    if a = t then some (0, b, false)
    else if b = t then some (0, a, true)
    else
      match findLinkFrom t rest with
      | some (j, nl, f) => some (j + 1, nl, f)
      | none => none

/-- Move the element at position `j` of a list to its front, placing
the old front element at position `j` (the effect of
`slice::swap(0, j)`). -/
def swapFront {A : Type} (l : List A) (j : Nat) : List A :=
  match l.get? j with
  | some y => (l.set j (l.headD y)).set 0 y
  | none => l

/-- The loop of `find_and_trace_chain`.  The source walks two arrays
in place with an index `i`; the embedding splits each array into the
processed prefix (accumulated in reverse) and the remaining suffix,
and reconstructs the final arrays on return.  `fuel` is consumed once
per loop iteration; since every iteration removes one element from
the suffix, the canonical instantiation `suffix length + 1` (used by
`findAndTraceChain`) never runs out.  Returns (reordered, number of
premises needed, indices to flip, final equalities, final premises). -/
def fatcGo (c1 : Term) :
    Nat → Term → List (Term × Term) → List ProofNode →
    List (Term × Term) → List ProofNode → Bool → List Nat →
    Except CheckerError (Bool × Nat × List Nat × List (Term × Term) × List ProofNode)
  | 0, t, _, _, _, _, _, _ => .error (.brokenTransitivityChain t c1)
  | fuel + 1, t, eqsRest, premsRest, accEqs, accPrems, reordered, flips =>
    if t = c1 then
      .ok (reordered, accEqs.length, flips,
        accEqs.reverse ++ eqsRest, accPrems.reverse ++ premsRest)
    else
      match findLinkFrom t eqsRest with
      | none => .error (.brokenTransitivityChain t c1)
      | some (j, nextLink, flip) =>
        let eqsSw := swapFront eqsRest j
        let premsSw := swapFront premsRest j
        let flips' := if flip then flips ++ [accEqs.length] else flips
        fatcGo c1 fuel nextLink eqsSw.tail premsSw.tail
          (eqsSw.headD (t, t) :: accEqs) (premsSw.headD (.assume "" t) :: accPrems)
          (reordered || decide (j ≠ 0)) flips'

/-- `find_and_trace_chain`: greedy chain search with in-place
reordering.  The source returns `(reordered, needed, flips)` and
mutates the two arrays; the embedding additionally returns the
arrays' final contents. -/
def findAndTraceChain (conclusion : Term × Term) (eqs : List (Term × Term))
    (premises : List ProofNode) :
    Except CheckerError (Bool × Nat × List Nat × List (Term × Term) × List ProofNode) :=
  fatcGo conclusion.2 (eqs.length + 1) conclusion.1 eqs premises [] [] false []

/-- The flip loop at the end of `trans`: replace each premise marked
for flipping by its `symm` step.  Out-of-bounds indexing (impossible
for the indices `find_and_trace_chain` returns) would panic. -/
def applyFlips : List Nat → List ProofNode → Except TransError (List ProofNode)
  | [], ps => .ok ps
  | i :: rest, ps =>
    match ps.get? i with
    | some p => do
        let sp ← addSymmStep p
        applyFlips rest (ps.set i sp)
    | none => .error .assertionFailure

/-- The premise-equality extraction in `trans`: for each premise in
order, assert its clause is a unit (panic otherwise) and match it
against `(= t u)` (returning `TermOfWrongForm` otherwise); the
`collect::<Result<_, _>>` short-circuits at the first failure. -/
def collectPremiseEqualities : List ProofNode → Except TransError (List (Term × Term))
  | [] => .ok []
  | p :: ps =>
    match p.clause with
    | [c] =>
      match matchTermEq c with
      | some e => do
          let es ← collectPremiseEqualities ps
          .ok (e :: es)
      | none => .error (.checker (.termOfWrongForm "(= t u)" c))
    | _ => .error .assertionFailure

/-- `trans`: the transitivity elaboration.  Checks run in source
order: the step's own clause is asserted to be a unit, its term is
matched as an equality, the premise equalities are collected, the
chain is found and traced, unused premises are truncated, and flipped
premises are wrapped in `symm` steps. -/
def trans (stp : StepNode) : Except TransError ProofNode :=
  match stp.clause with
  | [c] =>
    match matchTermEq c with
    | none => .error (.checker (.termOfWrongForm "(= t u)" c))
    | some conclusion => do
      let eqs ← collectPremiseEqualities stp.premises
      let r ← (findAndTraceChain conclusion eqs stp.premises).mapError TransError.checker
      let (_, numNeeded, flips, _, prems') := r
      let newPremises ← applyFlips flips (prems'.take numNeeded)
      .ok (ProofNode.ofStep { stp with premises := newPremises })
  | _ => .error .assertionFailure


/-! ## Linear proof commands and the binary-resolution expansion
(`src/carcara/src/translation.rs`)

The linear `ProofCommand` representation and the diff-based
`Elaborator` driven by `binarify_resolutions` are not among the
embedded source files, so the command type, the premise-reference
remapping (`map_index`) and the application of the resulting diff are
modelled from the spec (§3, §4.F); `binarify_single_resolution`
itself is embedded from the source. -/

/-- Association-list lookup by decidable equality (the embedding of
`HashMap` lookups; entries are newest first). -/
def alookup {A B : Type} [DecidableEq A] : List (A × B) → A → Option B
  | [], _ => none
  | (k, v) :: rest, a => if a = k then some v else alookup rest a

/-- `ProofStep`: a step of the linear proof representation.
Premises and discharge are `(depth, index)` references. -/
structure ProofStep where
  id : String
  clause : List Term
  rule : String
  premises : List (Nat × Nat)
  args : List ProofArg
  discharge : List (Nat × Nat)
deriving DecidableEq

/-- Modelled from the spec: a linear proof command. -/
inductive ProofCommand where
  | assume (id : String) (term : Term)
  | step (s : ProofStep)
  | subproof (commands : List ProofCommand)
      (assignmentArgs : List (String × Term)) (variableArgs : List (String × Term))

mutual

def ProofCommand.beq : ProofCommand → ProofCommand → Bool
  | .assume i t, .assume i' t' => decide (i = i') && decide (t = t')
  | .step s, .step s' => decide (s = s')
  | .subproof cs a v, .subproof cs' a' v' =>
      ProofCommand.beqList cs cs' && decide (a = a') && decide (v = v')
  | _, _ => false

def ProofCommand.beqList : List ProofCommand → List ProofCommand → Bool
  | [], [] => true
  | a :: as, b :: bs => ProofCommand.beq a b && ProofCommand.beqList as bs
  | _, _ => false

end

mutual

def ProofCommand.beq_eq :
    ∀ (a b : ProofCommand), ProofCommand.beq a b = true ↔ a = b
  | .assume _ _, .assume _ _ => by simp [ProofCommand.beq]
  | .assume _ _, .step _ => by simp [ProofCommand.beq]
  | .assume _ _, .subproof _ _ _ => by simp [ProofCommand.beq]
  | .step _, .assume _ _ => by simp [ProofCommand.beq]
  | .step _, .step _ => by simp [ProofCommand.beq]
  | .step _, .subproof _ _ _ => by simp [ProofCommand.beq]
  | .subproof _ _ _, .assume _ _ => by simp [ProofCommand.beq]
  | .subproof _ _ _, .step _ => by simp [ProofCommand.beq]
  | .subproof cs _ _, .subproof cs' _ _ => by
      simp [ProofCommand.beq, ProofCommand.beqList_eq cs cs', and_assoc]

def ProofCommand.beqList_eq :
    ∀ (as bs : List ProofCommand), ProofCommand.beqList as bs = true ↔ as = bs
  | [], [] => by simp [ProofCommand.beqList]
  | [], _ :: _ => by simp [ProofCommand.beqList]
  | _ :: _, [] => by simp [ProofCommand.beqList]
  | a :: as, b :: bs => by
      simp [ProofCommand.beqList, ProofCommand.beq_eq a b, ProofCommand.beqList_eq as bs]

end

instance ProofCommand.instDecEq : DecidableEq ProofCommand :=
  fun a b => decidable_of_iff (ProofCommand.beq a b = true) (ProofCommand.beq_eq a b)

mutual

/-- `ProofCommand::clause`: a unit clause for `assume`, the step's
clause, or the clause of the last command of a subproof. -/
def ProofCommand.clause : ProofCommand → List Term
  | .assume _ t => [t]
  | .step s => s.clause
  | .subproof cmds _ _ => ProofCommand.clauseOfLast cmds

def ProofCommand.clauseOfLast : List ProofCommand → List Term
  | [] => []
  | [c] => c.clause
  | _ :: c :: rest => ProofCommand.clauseOfLast (c :: rest)

end

/-- `ProofArg::as_term`. -/
def ProofArg.asTerm : ProofArg → Option Term
  | .term t => some t
  | .assign _ _ => none

/-- Total extra commands inserted at a depth at or before old index
`i`: a reference to old index `i` moves past the expansions of all
commands at positions `< i`, and a reference to an expanded command
itself resolves to the last (root-id) step of its expansion. -/
def extraAt (recs : List (Nat × Nat)) (i : Nat) : Nat :=
  (recs.filter (fun r => r.1 ≤ i)).foldl (fun acc r => acc + r.2) 0

/-- Modelled from the spec: `Elaborator::map_index` (§4.F), the
translation of an original `(depth, index)` premise reference into
the emitted proof, given the expansion records accumulated per
depth. -/
def mapIndexSpec (exps : List (List (Nat × Nat))) (r : Nat × Nat) : Nat × Nat :=
  (r.1, r.2 + extraAt (exps.getD r.1 []) r.2)

/-- `Vec::remove(position(..).unwrap())` on the accumulator: remove
the first occurrence, or fail (a panic in the source) if absent. -/
def removeFirst : List Term → Term → Option (List Term)
  | [], _ => none
  | x :: xs, t => if x = t then some xs else (removeFirst xs t).map (x :: ·)

/-- The `found` loop over the right-hand premise: drop the first
occurrence of the pivot, keeping everything else; absence is silently
ignored. -/
def removeFirstIfPresent : List Term → Term → List Term
  | [], _ => []
  | x :: xs, t => if x = t then xs else x :: removeFirstIfPresent xs t

/-- The loop of `binarify_single_resolution` over
`step.premises[1..]` zipped with their clauses.  `remap` is the
elaborator's `map_index`; `depth` is the current depth; `newStart` is
the new index of the first emitted step; `k` counts emitted steps
(`get_new_id` is modelled as producing `<root>.t<k+1>`).  `none`
embeds the source's `unwrap` panics: a missing or non-term argument,
or a pivot absent from the accumulated clause. -/
def binarifySingleGo (remap : Nat × Nat → Nat × Nat) (rootId : String)
    (depth newStart : Nat) :
    List ((Nat × Nat) × List Term) → List ProofArg → List Term → (Nat × Nat) → Nat →
    Option (List ProofStep)
  | [], _, _, _, _ => some []
  | (p, nextClause) :: rest, args, currentClause, prevPremise, k =>
    match args with
    | pa :: pb :: argsRest =>
      match pa.asTerm, pb.asTerm with
      | some pivot, some pol =>
        let isPivotInLeft := pol.isBoolTrue
        let negatedPivot := notT pivot
        let (pivotInCurrent, pivotInNext) :=
          if isPivotInLeft then (pivot, negatedPivot) else (negatedPivot, pivot)
        match removeFirst currentClause pivotInCurrent with
        | none => none
        | some removed =>
          let newClause := removed ++ removeFirstIfPresent nextClause pivotInNext
          let emitted : ProofStep :=
            { id := if rest.isEmpty then rootId else rootId ++ ".t" ++ toString (k + 1)
              clause := newClause
              rule := "resolution"
              premises := [prevPremise, remap p]
              args := [.term pivot, .term (boolConstant isPivotInLeft)]
              discharge := [] }
          match binarifySingleGo remap rootId depth newStart rest argsRest newClause
              (depth, newStart + k) (k + 1) with
          | some more => some (emitted :: more)
          | none => none
      | _, _ => none
    | _ => none

/-- `binarify_single_resolution`: expand one n-ary resolution step
into a chain of binary resolution steps.  The accumulator starts at
the first premise's clause and the first emitted step's left premise
is the unremapped `step.premises[0]`, exactly as in the source. -/
def binarifySingleResolution (remap : Nat × Nat → Nat × Nat) (depth newStart : Nat)
    (s : ProofStep) (premiseClauses : List (List Term)) : Option (List ProofStep) :=
  match s.premises, premiseClauses with
  | p0 :: prest, c0 :: crest =>
      binarifySingleGo remap s.id depth newStart (prest.zip crest) s.args c0 p0 0
  | _, _ => none

/-- `ProofIter::get_premise`: dereference a `(depth, index)`
reference in the original proof (`stack[d]` holds the original
command list at depth `d`).  Out-of-range references (a panic in the
source) resolve to a dummy command; no embedded claim exercises
them. -/
def getPremiseClause (stack : List (List ProofCommand)) (r : Nat × Nat) : List Term :=
  ((stack.getD r.1 []).getD r.2 (.assume "" (boolConstant false))).clause

/- The traversal of `binarify_resolutions` composed with the
application of the produced diff (`apply_diff` is modelled from the
spec: expansions replace their step in place, every premise reference
of a retained step is remapped through `map_index`).

`stack` holds the original command lists of the enclosing depths
(innermost last), `exps` the completed expansion records of the
enclosing depths; `oldPos`, `extra` and `cur` are the old position of
the command, the cumulative inserted command count, and the expansion
records so far at the current level.  `binarifyCmd` returns the
commands a single command becomes together with the updated `extra`
and `cur`. -/
mutual

def binarifyCmd (stack : List (List ProofCommand)) (exps : List (List (Nat × Nat))) :
    ProofCommand → Nat → Nat → List (Nat × Nat) →
    Option (List ProofCommand × Nat × List (Nat × Nat))
  | .assume i t, _, extra, cur => some ([.assume i t], extra, cur)
  | .step s, oldPos, extra, cur =>
    if s.rule = "resolution" ∧ s.premises.length > 2 then
      let env := exps ++ [cur]
      let premiseClauses := s.premises.map (getPremiseClause stack)
      match binarifySingleResolution (mapIndexSpec env) exps.length (oldPos + extra) s
          premiseClauses with
      | none => none
      | some steps =>
        some (steps.map .step, extra + (s.premises.length - 2),
          cur ++ [(oldPos, s.premises.length - 2)])
    else
      let env := exps ++ [cur]
      let s' := { s with premises := s.premises.map (mapIndexSpec env)
                         discharge := s.discharge.map (mapIndexSpec env) }
      some ([.step s'], extra, cur)
  | .subproof cmds aArgs vArgs, _, extra, cur =>
    match binarifyList (stack ++ [cmds]) (exps ++ [cur]) cmds 0 0 [] with
    | some inner => some ([.subproof inner aArgs vArgs], extra, cur)
    | none => none

def binarifyList (stack : List (List ProofCommand)) (exps : List (List (Nat × Nat))) :
    List ProofCommand → Nat → Nat → List (Nat × Nat) → Option (List ProofCommand)
  | [], _, _, _ => some []
  | cmd :: rest, oldPos, extra, cur =>
    match binarifyCmd stack exps cmd oldPos extra cur with
    | some (out, extra', cur') =>
        (binarifyList stack exps rest (oldPos + 1) extra' cur').map (out ++ ·)
    | none => none

end

def binarifyResolutions (proof : List ProofCommand) : Option (List ProofCommand) :=
  binarifyList [proof] [] proof 0 0 []


/-! ## Uncrowding (`src/carcara/src/elaborator/uncrowding.rs`) -/

/-- `Literal`: a term stripped of its leading negations, paired with
their count (`Rc::remove_all_negations`). -/
abbrev Lit := Nat × Term

/-- `CrowdingLiteralInfo`. -/
structure CrowdingLiteralInfo where
  lastInclusion : Nat
  eliminator : Nat
deriving DecidableEq, Repr

/-- The pivot occurrence eliminated from the accumulated clause at a
pivot step: the pivot itself if the polarity is `true`, its negation
otherwise. -/
def pivotInCurrentLit (pivot : Lit) (polarity : Bool) : Lit :=
  if polarity then pivot else (pivot.1 + 1, pivot.2)

/-- The first loop of `find_crowding_literals`
(`for (i, clause) in premises.iter().enumerate()`): overwrite
`last_inclusion` with the index of each premise containing the
literal. -/
def setLastInclusions (i : Nat) (premises : List (List Lit))
    (acc : List (Lit × CrowdingLiteralInfo)) : List (Lit × CrowdingLiteralInfo) :=
  match premises with
  | [] => acc
  | cl :: rest =>
    setLastInclusions (i + 1) rest
      (acc.map (fun li =>
        (li.1, if li.1 ∈ cl then { li.2 with lastInclusion := i } else li.2)))

/-- The second loop of `find_crowding_literals`
(`for (i, &(pivot, polarity)) in pivots.iter().enumerate()`):
overwrite `eliminator` with `i + 1` whenever the eliminated pivot
occurrence equals the literal and `i + 1 > last_inclusion`. -/
def setEliminators (i : Nat) (pivots : List (Lit × Bool))
    (acc : List (Lit × CrowdingLiteralInfo)) : List (Lit × CrowdingLiteralInfo) :=
  match pivots with
  | [] => acc
  | (pivot, polarity) :: rest =>
    setEliminators (i + 1) rest
      (acc.map (fun li =>
        (li.1,
          if li.1 = pivotInCurrentLit pivot polarity ∧ i + 1 > li.2.lastInclusion then
            { li.2 with eliminator := i + 1 }
          else li.2)))

/-- `find_crowding_literals`: collect the literals of the naive
conclusion absent from the target, then set `last_inclusion` to the
index of each premise containing the literal (in increasing premise
order, so the final value is the largest such index), and set
`eliminator` to `i + 1` for each pivot step `i` eliminating the
literal with `i + 1 > last_inclusion` (in increasing pivot order, so
the final value is the largest such index).  The `HashMap` becomes an
association list; per-key updates commute with iteration order. -/
def findCrowdingLiterals (naive : List Lit) (target : List Lit)
    (premises : List (List Lit)) (pivots : List (Lit × Bool)) :
    List (Lit × CrowdingLiteralInfo) :=
  setEliminators 0 pivots
    (setLastInclusions 0 premises
      (((naive.filter (fun l => decide (l ∉ target))).dedup).map (fun l => (l, ⟨0, 0⟩))))

/-- Whether pivot step index `j` (that is, pivot `j - 1`) eliminates
the literal from the accumulated clause: the claim's notion of an
elimination point. -/
def eliminatesAt (pivots : List (Lit × Bool)) (l : Lit) (j : Nat) : Bool :=
  match j with
  | 0 => false
  | i + 1 =>
    match pivots.get? i with
    | some (p, pol) => decide (pivotInCurrentLit p pol = l)
    | none => false

/-! ## Step elaborator index mapping
(`src/carcara/src/elaborator/step.rs`)

`StepElaborator` wraps an inner `Elaborator` whose Rust definition is
not among the embedded source files; the inner state and its
`map_index` are modelled from the spec (§4.F). -/

/-- Modelled from the spec: the part of the inner `Elaborator` state
that `StepElaborator` reads.  `offsets` holds, per depth, the offset
accumulated for already-emitted commands; `map_index` adds the offset
of the reference's depth. -/
structure InnerElabState where
  depth : Nat
  offsets : List Nat
  currentSubproofLen : Nat
deriving DecidableEq, Repr

/-- Modelled from the spec: the inner `Elaborator::map_index`. -/
def innerMapIndex (inner : InnerElabState) (r : Nat × Nat) : Nat × Nat :=
  (r.1, r.2 + inner.offsets.getD r.1 0)

/-- `StepElaborator`: the inner state, the root id, and the stack of
frames of new commands (`stack[0]` is the bottom frame, the last
element the top frame, as in the source's `Vec`). -/
structure StepElabState where
  inner : InnerElabState
  rootId : String
  stack : List (List ProofCommand)
deriving DecidableEq

/-- `StepElaborator::new`. -/
def StepElabState.new (inner : InnerElabState) (rootId : String) : StepElabState :=
  { inner := inner, rootId := rootId, stack := [[]] }

/-- `StepElaborator::offset`: `self.stack[0].len()`. -/
def StepElabState.offset (st : StepElabState) : Nat :=
  (st.stack.headD []).length

/-- `StepElaborator::depth`: `self.stack.len() - 1`. -/
def StepElabState.sdepth (st : StepElabState) : Nat :=
  st.stack.length - 1

/-- `StepElaborator::map_index`.  The source first asserts
`index.0 <= self.inner.depth()` (a runtime check which does not
affect the returned value), maps the reference through the inner
elaborator, and adds the current offset when the mapped depth equals
the inner depth and is at least the inner current subproof length
(the source compares the *depth* with that length). -/
def StepElabState.mapIndex (st : StepElabState) (index : Nat × Nat) : Nat × Nat :=
  let di := innerMapIndex st.inner index
  if di.1 = st.inner.depth ∧ st.inner.currentSubproofLen ≤ di.1 then
    (di.1, di.2 + st.offset)
  else di

/-- `StepElaborator::next_id`: the root id extended with `.t<len+1>`
for each frame of the stack, bottom first. -/
def StepElabState.nextId (st : StepElabState) : String :=
  st.stack.foldl (fun acc f => acc ++ ".t" ++ toString (f.length + 1)) st.rootId

/-- Overwrite a command's id (`*id = self.next_id()`); pushing a
subproof is a panic in the source, embedded as `none`. -/
def setCommandId (newId : String) : ProofCommand → Option ProofCommand
  | .assume _ t => some (.assume newId t)
  | .step s => some (.step { s with id := newId })
  | .subproof _ _ _ => none

/-- Append a command to the top frame of the stack
(`self.top_frame().push(command)`). -/
def appendToTopFrame (stack : List (List ProofCommand)) (c : ProofCommand) :
    List (List ProofCommand) :=
  match stack with
  | [] => []
  | [f] => [f ++ [c]]
  | f :: rest => f :: appendToTopFrame rest c

/-- `StepElaborator::add_new_command`: compute the `(depth, index)`
the new command will occupy, overwrite its id, and push it onto the
top frame.  `none` embeds the panic on pushing a subproof (an empty
frame stack is impossible: the stack is created with one frame). -/
def StepElabState.addNewCommand (st : StepElabState) (command : ProofCommand) :
    Option ((Nat × Nat) × StepElabState) :=
  let index :=
    if st.sdepth = 0 then st.inner.currentSubproofLen + st.offset
    else (st.stack.getLastD []).length
  let depth := st.inner.depth + st.sdepth
  match setCommandId st.nextId command with
  | none => none
  | some c => some ((depth, index), { st with stack := appendToTopFrame st.stack c })

/-- `StepElaborator::open_subproof`. -/
def StepElabState.openSubproof (st : StepElabState) : StepElabState :=
  { st with stack := st.stack ++ [[]] }


/-! ## Elaborator traversal (`src/carcara/src/elaborator/mod.rs`)

`mutate` is an explicit work-stack traversal; the embedding keeps the
stack explicit and threads the mutable state (`cache`,
`did_outbound`, `outbound_premises_stack`) through a loop on fuel.
Every iteration of the source loop consumes one fuel unit; `none`
means the fuel ran out or one of the source's panicking lookups
(`cache[p]`, `outbound_premises_stack.pop().unwrap()`) failed.  The
`HashMap`/`HashSet` keyed by `&Rc<ProofNode>` become association
lists keyed by structural value (hash-consing contract), and the
`IndexSet` becomes a duplicate-free list in insertion order.  In the
embedded stacks the head is the top (the source `Vec` pushes and pops
at the end).  To observe how often the rewrite function is applied,
the state also logs each node it is applied for; the source's
terminal `assert!` on the outbound stack is a runtime check that does
not affect the returned value and is not modelled. -/

/-- Modelled from the spec: `ProofNode::get_outbound_premises`, the
references of a node that target a strictly shallower depth (not
among the embedded source files).  Steps contribute their premises,
discharge and previous step; subproofs contribute their recorded
outbound premises; the filter keeps targets shallower than the node
itself. -/
def ProofNode.getOutboundPremises : ProofNode → List ProofNode
  | .assume _ _ => []
  | .step _ d _ _ ps _ dis prev =>
      (ps ++ dis ++ prev.toList).filter (fun p => p.depth < d)
  | .subproof last _ ob => ob.filter (fun p => p.depth < last.depth - 1)

/-- `IndexSet::insert`: append if not already present. -/
def indexSetInsert (l : List ProofNode) (x : ProofNode) : List ProofNode :=
  if x ∈ l then l else l ++ [x]

/-- `IndexSet::extend` on the top frame of the outbound-premises
stack (empty stack: the `last_mut().unwrap()` panic is unreachable,
the initial frame is never popped). -/
def extendTopFrame (frames : List (List ProofNode)) (xs : List ProofNode) :
    List (List ProofNode) :=
  match frames with
  | [] => []
  | fr :: rest => xs.foldl indexSetInsert fr :: rest

/-- The mutable state of `mutate`. -/
structure MutState where
  cache : List (ProofNode × ProofNode)
  didOutbound : List ProofNode
  obStack : List (List ProofNode)
  calls : List ProofNode
deriving DecidableEq

/-- The two lines ending each processed node: extend the top
outbound frame with the mutated node's outbound premises and insert
the node into the cache; `logCall` records that the rewrite function
was applied while processing this node. -/
def mutRecord (st : MutState) (node mutated : ProofNode) (logCall : Bool) : MutState :=
  { cache := (node, mutated) :: st.cache
    didOutbound := st.didOutbound
    obStack := extendTopFrame st.obStack mutated.getOutboundPremises
    calls := if logCall then node :: st.calls else st.calls }

/-- Look every node of a list up in the cache (`cache[p].clone()`;
a missing entry is a panic in the source). -/
def cacheAll (cache : List (ProofNode × ProofNode)) :
    List ProofNode → Option (List ProofNode)
  | [] => some []
  | p :: ps =>
    match alookup cache p, cacheAll cache ps with
    | some v, some vs => some (v :: vs)
    | _, _ => none

def cacheOpt (cache : List (ProofNode × ProofNode)) :
    Option ProofNode → Option (Option ProofNode)
  | none => some none
  | some p => (alookup cache p).map some

/-- The loop of `mutate`.  The todo stack holds `(node, is_done)`
entries, head on top. -/
def mutateLoop (f : ProofNode → ProofNode) :
    Nat → List (ProofNode × Bool) → MutState → Option MutState
  | 0, _, _ => none
  | _ + 1, [], st => some st
  | fuel + 1, (node, isDone) :: todo, st =>
    if (alookup st.cache node).isSome then mutateLoop f fuel todo st
    else
      match node, isDone with
      | .assume _ _, _ =>
          mutateLoop f fuel todo (mutRecord st node (f node) true)
      | .step _ _ _ _ ps _ dis prev, false =>
          let allPremises := ps ++ dis ++ prev.toList
          let pushes := (allPremises.filter (fun p => (alookup st.cache p).isNone)).map
            (fun p => (p, false))
          mutateLoop f fuel (pushes ++ (node, true) :: todo) st
      | .step i d c r ps as dis prev, true =>
          match cacheAll st.cache ps, cacheAll st.cache dis, cacheOpt st.cache prev with
          | some ps', some dis', some prev' =>
              mutateLoop f fuel todo
                (mutRecord st node (f (.step i d c r ps' as dis' prev')) true)
          | _, _, _ => none
      | .subproof last _ ob, false =>
          if node ∈ st.didOutbound then
            mutateLoop f fuel ((last, false) :: (node, true) :: todo)
              { st with obStack := [] :: st.obStack }
          else
            mutateLoop f fuel (ob.reverse.map (fun p => (p, false)) ++ (node, false) :: todo)
              { st with didOutbound := node :: st.didOutbound }
      | .subproof last as _, true =>
          match st.obStack with
          | frame :: restFrames =>
            match alookup st.cache last with
            | some last' =>
                mutateLoop f fuel todo
                  (mutRecord { st with obStack := restFrames } node
                    (.subproof last' as frame) false)
            | none => none
          | [] => none

/-- The initial state of `mutate`: empty cache, empty
`did_outbound`, one empty outbound frame, no calls logged. -/
def mutInit : MutState := ⟨[], [], [[]], []⟩

/-- `mutate`: run the loop from the root and return `cache[root]`. -/
def mutateResult (f : ProofNode → ProofNode) (fuel : Nat) (root : ProofNode) :
    Option ProofNode :=
  match mutateLoop f fuel [(root, false)] mutInit with
  | some st => alookup st.cache root
  | none => none

/- Erase the recorded outbound-premise lists of every subproof of a
node (the elaborator recomputes them during the traversal; all other
node contents are compared exactly). -/
mutual

def stripOutbound : ProofNode → ProofNode
  | .assume i t => .assume i t
  | .step i d c r ps as dis prev =>
      .step i d c r (stripOutboundList ps) as (stripOutboundList dis)
        (stripOutboundOpt prev)
  | .subproof last as _ => .subproof (stripOutbound last) as []

def stripOutboundList : List ProofNode → List ProofNode
  | [] => []
  | p :: ps => stripOutbound p :: stripOutboundList ps

def stripOutboundOpt : Option ProofNode → Option ProofNode
  | none => none
  | some p => some (stripOutbound p)

end


/-! ## Specification-side notions used to state the claims -/

/-- A default node for positional access in theorem statements. -/
def dnode : ProofNode := .assume "" (boolConstant false)

/-- Walk a list of oriented equalities as a chain: each link starts
at the current endpoint and moves to its other side. -/
def linksChainB : Term → List (Term × Term) → Term → Bool
  | t, [], u => decide (t = u)
  | t, (a, b) :: rest, u => decide (t = a) && linksChainB b rest u

/-- The spec's notion used by claim C1: the premise equalities
realize a chain of length `k` from `t` to `u`, via a selection of `k`
distinct premise indices together with an orientation for each. -/
def realizesChainOfLength (eqs : List (Term × Term)) (t u : Term) (k : Nat) : Prop :=
  ∃ sel : List (Nat × Bool),
    sel.length = k ∧ (sel.map Prod.fst).Nodup ∧
    (∀ ib ∈ sel, ib.1 < eqs.length) ∧
    linksChainB t
      (sel.map (fun ib =>
        let e := eqs.getD ib.1 (t, t)
        if ib.2 then (e.2, e.1) else e)) u = true

/-- The spec's per-iteration accumulator of §4.H.2, written from the
spec's words for comparison with `binarify_single_resolution`: start
from the first premise clause and, for each further premise, remove
the pivot occurrence from the accumulator and append the premise
clause minus the opposite occurrence. -/
def specAccumulate : List Term → List (List Term) → List ProofArg → Option (List Term)
  | cur, [], _ => some cur
  | cur, nc :: rest, args =>
    match args with
    | pa :: pb :: argsRest =>
      match pa.asTerm, pb.asTerm with
      | some pivot, some pol =>
        let pc := if pol.isBoolTrue then pivot else notT pivot
        let pn := if pol.isBoolTrue then notT pivot else pivot
        match removeFirst cur pc with
        | some rem => specAccumulate (rem ++ removeFirstIfPresent nc pn) rest argsRest
        | none => none
      | _, _ => none
    | _ => none

/- Whether the binary-resolution rewrite can fire anywhere in a
command list: a `resolution` step with more than two premises. -/
mutual

def noFireCmd : ProofCommand → Bool
  | .assume _ _ => true
  | .step s => !(decide (s.rule = "resolution") && decide (s.premises.length > 2))
  | .subproof cs _ _ => noFireList cs

def noFireList : List ProofCommand → Bool
  | [] => true
  | c :: rest => noFireCmd c && noFireList rest

end

/-! ## Concrete instances used by witnesses and counterexamples -/

def varA : Term := .var "a" boolSortT
def varB : Term := .var "b" boolSortT
def varC : Term := .var "c" boolSortT
def varD : Term := .var "d" boolSortT
def varF : Term := .var "f" boolSortT

/-- A premise-less step node with a given id and clause. -/
def leafNode (i : String) (cl : List Term) : ProofNode := .step i 0 cl "hole" [] [] [] none

/-- A depth-0 `trans` step node over given premises and conclusion. -/
def transNode (cl : List Term) (ps : List ProofNode) : StepNode :=
  { id := "t"
    depth := 0
    clause := cl
    rule := "trans"
    premises := ps
    args := []
    discharge := []
    previousStep := none }

/-- C1 counterexample input: premises `(= a b), (= b c), (= a c)`
with conclusion `(= a c)`; the single premise `(= a c)` already
realizes a chain of length 1, but the greedy search consumes 2. -/
def c1Step : StepNode := transNode [eqT varA varC]
  [leafNode "p1" [eqT varA varB], leafNode "p2" [eqT varB varC], leafNode "p3" [eqT varA varC]]

/-- C9 counterexample input: the conclusion clause is a unit
non-equality while the premise clause is not a unit. -/
def c9Step : StepNode := transNode [varA] [leafNode "p1" [varA, varB]]

/-- Witness input for C5: scenario 3 of the spec (premises
`(= b a), (= b c)`, conclusion `(= a c)`). -/
def c5Step : StepNode := transNode [eqT varA varC]
  [leafNode "p1" [eqT varB varA], leafNode "p2" [eqT varB varC]]

/-- C3 inputs: the literal `l` is introduced only by premise 0 and
eliminated at pivot steps 1 and 2 (both strictly after its last
inclusion), yet survives into the naive conclusion. -/
def c3lit : Lit := (0, varA)

def c3prems : List (List Lit) :=
  [[c3lit, c3lit, c3lit, (0, varB)], [(1, varA), (0, varC)], [(1, varA), (0, varD)]]

def c3pivots : List (Lit × Bool) := [(c3lit, true), (c3lit, true)]

def c3naive : List Lit := [c3lit, (0, varB), (0, varC), (0, varD)]

def c3target : List Lit := [(0, varB), (0, varC), (0, varD)]

/-- A premise-less linear step with a given id, clause and rule. -/
def leafCmd (i : String) (cl : List Term) : ProofCommand :=
  .step { id := i, clause := cl, rule := "hole", premises := [], args := [], discharge := [] }

/-- A linear `resolution` step with term arguments. -/
def resCmd (i : String) (cl : List Term) (ps : List (Nat × Nat)) (args : List ProofArg) :
    ProofCommand :=
  .step { id := i, clause := cl, rule := "resolution", premises := ps, args := args,
          discharge := [] }

/-- C2 witness and C6 witness input: the first test case of
`translation.rs`. -/
def case1Proof : List ProofCommand :=
  [leafCmd "t1" [varA, varB], leafCmd "t2" [notT varA], leafCmd "t3" [notT varB],
   resCmd "t4" [] [(0, 0), (0, 1), (0, 2)]
     [.term varA, .term (boolConstant true), .term varB, .term (boolConstant true)]]

/-- The expected output for `case1Proof` (also from the source's unit
test). -/
def case1Out : List ProofCommand :=
  [leafCmd "t1" [varA, varB], leafCmd "t2" [notT varA], leafCmd "t3" [notT varB],
   resCmd "t4.t1" [varB] [(0, 0), (0, 1)] [.term varA, .term (boolConstant true)],
   resCmd "t4" [] [(0, 3), (0, 2)] [.term varB, .term (boolConstant true)]]

/-- C2 counterexample input: same premises and pivots, but the
declared clause of the root step is `(cl f)`, which is not the naive
resolvent. -/
def c2Step : ProofStep :=
  { id := "t4"
    clause := [varF]
    rule := "resolution"
    premises := [(0, 0), (0, 1), (0, 2)]
    args := [.term varA, .term (boolConstant true), .term varB, .term (boolConstant true)]
    discharge := [] }

def c2Clauses : List (List Term) := [[varA, varB], [notT varA], [notT varB]]

/-- C10 counterexample input: an assignment argument sits beyond the
first `2 * (n - 1)` arguments and is never consumed. -/
def c10Step : ProofStep :=
  { id := "t4"
    clause := []
    rule := "resolution"
    premises := [(0, 0), (0, 1), (0, 2)]
    args := [.term varA, .term (boolConstant true), .term varB, .term (boolConstant true),
             .assign "x" varA]
    discharge := [] }

/-- C7 counterexample input: a subproof whose recorded outbound
premises are stored in the reverse of traversal order. -/
def c7p1 : ProofNode := leafNode "p1" [varA]

def c7p2 : ProofNode := leafNode "p2" [varB]

def c7inner : ProofNode := .step "s" 1 [varC] "hole" [c7p1, c7p2] [] [] none

def c7sub : ProofNode := .subproof c7inner [] [c7p2, c7p1]

def c7root : ProofNode := .step "r" 0 [varC] "hole" [c7sub] [] [] none

/-- C7 witness input: a diamond-shaped DAG sharing one premise. -/
def c7q1 : ProofNode := leafNode "q1" [varA]

def c7q2 : ProofNode := .step "q2" 0 [varB] "hole" [c7q1] [] [] none

def c7q3 : ProofNode := .step "q3" 0 [varC] "hole" [c7q1] [] [] none

def c7q4 : ProofNode := .step "q4" 0 [varC] "hole" [c7q2, c7q3] [] [] none

/-- C8 witness input: a fresh step elaborator one subproof deep. -/
def c8State : StepElabState :=
  StepElabState.new { depth := 1, offsets := [2, 0], currentSubproofLen := 3 } "t5"


/-- The value `last_inclusion` holds after the first loop of
`find_crowding_literals`, as a fold over the premise list. -/
def lastIncFold (l : Lit) : Nat → List (List Lit) → Nat → Nat
  | _, [], cur => cur
  | i, cl :: rest, cur => lastIncFold l (i + 1) rest (if l ∈ cl then i else cur)

/-- The value `eliminator` holds after the second loop of
`find_crowding_literals`, as a fold over the pivot list. -/
def elimFold (l : Lit) (lastInc : Nat) : Nat → List (Lit × Bool) → Nat → Nat
  | _, [], cur => cur
  | i, (p, pol) :: rest, cur =>
      elimFold l lastInc (i + 1) rest
        (if l = pivotInCurrentLit p pol ∧ i + 1 > lastInc then i + 1 else cur)

/-- The result of adding one command to `c8State`. -/
def c8Res : (Nat × Nat) × StepElabState :=
  ((1, 3),
    { c8State with stack := [[.step
        { id := "t5.t1", clause := [varA], rule := "hole", premises := [], args := [],
          discharge := [] }]] })

/-- A default pivot entry for positional access in theorem
statements. -/
def dpivot : Lit × Bool := ((0, boolConstant false), true)

/-- A default linear step for positional access in theorem
statements. -/
def dstep : ProofStep :=
  { id := "", clause := [], rule := "", premises := [], args := [], discharge := [] }

/-- The expansion the source produces for `c2Step` (computed by the
embedding and checked against the source's unit test shape). -/
def c2Out : List ProofStep :=
  [{ id := "t4.t1", clause := [varB], rule := "resolution", premises := [(0, 0), (0, 1)],
     args := [.term varA, .term (boolConstant true)], discharge := [] },
   { id := "t4", clause := [], rule := "resolution", premises := [(0, 3), (0, 2)],
     args := [.term varB, .term (boolConstant true)], discharge := [] }]

def c10Clauses : List (List Term) := [[varA, varB], [notT varA], [notT varB]]

/-- The expansion the source produces for `c10Step`: the trailing
assignment argument is never consumed, so nothing panics. -/
def c10Out : List ProofStep :=
  [{ id := "t4.t1", clause := [varB], rule := "resolution", premises := [(0, 0), (0, 1)],
     args := [.term varA, .term (boolConstant true)], discharge := [] },
   { id := "t4", clause := [], rule := "resolution", premises := [(0, 3), (0, 2)],
     args := [.term varB, .term (boolConstant true)], discharge := [] }]

/-- C10 witness inputs: a step with too few arguments, and a step
with an assignment among the consumed arguments. -/
def c10ShortStep : ProofStep :=
  { id := "t4"
    clause := []
    rule := "resolution"
    premises := [(0, 0), (0, 1), (0, 2)]
    args := [.term varA, .term (boolConstant true)]
    discharge := [] }

def c10AssignStep : ProofStep :=
  { id := "t4"
    clause := []
    rule := "resolution"
    premises := [(0, 0), (0, 1), (0, 2)]
    args := [.term varA, .term (boolConstant true), .assign "x" varB,
             .term (boolConstant true)]
    discharge := [] }

/-- C9 witness input: the prefix premise is a unit equality and the
next premise's clause is not a unit. -/
def c9bStep : StepNode := transNode [eqT varA varC]
  [leafNode "p1" [eqT varA varB], leafNode "p2" []]

/-- C9 witness input: the prefix premise is a unit equality and the
next premise's unit clause is not an equality. -/
def c9cStep : StepNode := transNode [eqT varA varC]
  [leafNode "p1" [eqT varA varB], leafNode "p2" [varB]]

/-- The premises the `trans` elaboration keeps for `c1Step`. -/
def c1UsedPremises : List ProofNode :=
  [leafNode "p1" [eqT varA varB], leafNode "p2" [eqT varB varC]]

/-- What the identity traversal actually returns for `c7root`: the
subproof's recorded outbound premises are recomputed in traversal
order, flipping the stored `[p2, p1]` to `[p1, p2]`. -/
def c7expected : ProofNode :=
  .step "r" 0 [varC] "hole" [.subproof c7inner [] [c7p1, c7p2]] [] [] none

/-! ## Theorems -/

/-- C4: the spec claims `next_token` always returns a token or one of
the five lexer errors (or a wrapped I/O error) and never panics, even
when the first non-whitespace character starts no token.  The
source's catch-all arm is `todo!()`, so on the input `[` it panics:
the code contradicts the spec's (and its own) evident intent of
reporting `UnexpectedChar`. -/
theorem c4_next_token_panics_on_bracket :
    nextToken ("[".toList) = .error .panicTodo := by decide


/-- Appending to the top frame never shrinks the bottom frame. -/
theorem appendToTopFrame_head_len (stack : List (List ProofCommand)) (c : ProofCommand) :
    (stack.headD []).length ≤ (((appendToTopFrame stack c)).headD []).length := by
  match stack with
  | [] => simp [appendToTopFrame]
  | [f] => simp [appendToTopFrame]
  | f :: g :: rest => simp [appendToTopFrame]

/-- Two step-elaborator states with the same inner elaborator and a
non-decreasing bottom-frame offset map every reference to the same
depth and a non-decreasing index. -/
theorem mapIndex_mono_of_inner_eq (s1 s2 : StepElabState) (h1 : s1.inner = s2.inner)
    (h2 : s1.offset ≤ s2.offset) (r : Nat × Nat) :
    (s2.mapIndex r).1 = (s1.mapIndex r).1 ∧ (s1.mapIndex r).2 ≤ (s2.mapIndex r).2 := by
  unfold StepElabState.mapIndex innerMapIndex
  rw [h1]
  by_cases hc : r.1 = s2.inner.depth ∧ s2.inner.currentSubproofLen ≤ r.1
  · simp only [if_pos hc]
    refine ⟨by simp, by simp; omega⟩
  · simp only [if_neg hc]
    refine ⟨by simp, by simp⟩

/-- C8: during a single elaboration pass, the step elaborator's
`map_index` is monotone: adding a new command never decreases the
index returned for any fixed premise reference (and never changes its
depth).  Adding a command leaves the inner elaborator untouched and
can only grow the bottom frame, whose length is the only offset
`map_index` adds. -/
theorem c8_map_index_monotone (st : StepElabState) (c : ProofCommand) (r : Nat × Nat)
    (res : (Nat × Nat) × StepElabState) (h : st.addNewCommand c = some res) :
    (res.2.mapIndex r).1 = (st.mapIndex r).1 ∧
      (st.mapIndex r).2 ≤ (res.2.mapIndex r).2 := by
  unfold StepElabState.addNewCommand at h
  cases hset : setCommandId st.nextId c with
  | none => rw [hset] at h; simp at h
  | some c' =>
    rw [hset] at h
    simp only [Option.some_inj] at h
    subst h
    exact mapIndex_mono_of_inner_eq st { st with stack := appendToTopFrame st.stack c' }
      rfl (appendToTopFrame_head_len st.stack c') r

/-- C8 witness: the monotonicity theorem applied to a concrete state
and command. -/
theorem c8_map_index_monotone_witness :
    (c8Res.2.mapIndex (1, 1)).1 = (c8State.mapIndex (1, 1)).1 ∧
      (c8State.mapIndex (1, 1)).2 ≤ (c8Res.2.mapIndex (1, 1)).2 :=
  c8_map_index_monotone c8State (leafCmd "x" [varA]) (1, 1) c8Res (by decide)

/-- Looking up after one update pass of `setLastInclusions`. -/
theorem alookup_setLastInc_step (cl : List Lit) (i : Nat)
    (acc : List (Lit × CrowdingLiteralInfo)) (l : Lit) :
    alookup (acc.map (fun li =>
        (li.1, if li.1 ∈ cl then { li.2 with lastInclusion := i } else li.2))) l
      = (alookup acc l).map
          (fun info => if l ∈ cl then { info with lastInclusion := i } else info) := by
  induction acc with
  | nil => simp [alookup]
  | cons kv rest ih =>
    by_cases h : l = kv.1
    · simp [alookup, h]
    · simp [alookup, h, ih]

/-- Looking up after one update pass of `setEliminators`. -/
theorem alookup_setElim_step (pc : Lit) (i : Nat)
    (acc : List (Lit × CrowdingLiteralInfo)) (l : Lit) :
    alookup (acc.map (fun li =>
        (li.1,
          if li.1 = pc ∧ i + 1 > li.2.lastInclusion then
            { li.2 with eliminator := i + 1 }
          else li.2))) l
      = (alookup acc l).map
          (fun info =>
            if l = pc ∧ i + 1 > info.lastInclusion then
              { info with eliminator := i + 1 }
            else info) := by
  induction acc with
  | nil => simp [alookup]
  | cons kv rest ih =>
    by_cases h : l = kv.1
    · simp [alookup, h]
    · simp [alookup, h, ih]

/-- `setLastInclusions` rewrites each stored `last_inclusion` by the
fold `lastIncFold`. -/
theorem setLastInclusions_lookup :
    ∀ (prems : List (List Lit)) (i : Nat) (acc : List (Lit × CrowdingLiteralInfo)) (l : Lit),
      alookup (setLastInclusions i prems acc) l
        = (alookup acc l).map
            (fun info => { info with lastInclusion := lastIncFold l i prems info.lastInclusion }) := by
  intro prems
  induction prems with
  | nil => intro i acc l; cases h : alookup acc l <;> simp [setLastInclusions, lastIncFold, h]
  | cons cl rest ih =>
    intro i acc l
    simp only [setLastInclusions]
    rw [ih, alookup_setLastInc_step]
    cases h : alookup acc l with
    | none => simp
    | some info =>
      by_cases hm : l ∈ cl <;> simp [hm, lastIncFold]

/-- `setEliminators` rewrites each stored `eliminator` by the fold
`elimFold` (and leaves `last_inclusion` unchanged). -/
theorem setEliminators_lookup :
    ∀ (ps : List (Lit × Bool)) (i : Nat) (acc : List (Lit × CrowdingLiteralInfo)) (l : Lit),
      alookup (setEliminators i ps acc) l
        = (alookup acc l).map
            (fun info =>
              { info with eliminator := elimFold l info.lastInclusion i ps info.eliminator }) := by
  intro ps
  induction ps with
  | nil => intro i acc l; cases h : alookup acc l <;> simp [setEliminators, elimFold, h]
  | cons ppol rest ih =>
    intro i acc l
    obtain ⟨p, pol⟩ := ppol
    simp only [setEliminators]
    rw [ih, alookup_setElim_step]
    cases h : alookup acc l with
    | none => simp
    | some info =>
      by_cases hm : l = pivotInCurrentLit p pol ∧ i + 1 > info.lastInclusion <;>
        simp [hm, elimFold]

/-- Looking a key up in a constant-valued association list. -/
theorem alookup_const_map {A B : Type} [DecidableEq A] (v : B) :
    ∀ (ys : List A) (a : A),
      alookup (ys.map (fun y => (y, v))) a = if a ∈ ys then some v else none := by
  intro ys a
  induction ys with
  | nil => simp [alookup]
  | cons y rest ih =>
    by_cases h : a = y
    · simp [alookup, h]
    · simp [alookup, h, ih]

theorem lastIncFold_ge :
    ∀ (prems : List (List Lit)) (l : Lit) (i cur : Nat), cur ≤ i →
      cur ≤ lastIncFold l i prems cur := by
  intro prems
  induction prems with
  | nil => intro l i cur h; simp [lastIncFold]
  | cons cl rest ih =>
    intro l i cur h
    simp only [lastIncFold]
    by_cases hm : l ∈ cl
    · simp only [hm, if_true]
      exact le_trans h (ih l (i + 1) i (by omega))
    · simp only [hm, if_false]
      exact ih l (i + 1) cur (by omega)

theorem lastIncFold_mem_le :
    ∀ (prems : List (List Lit)) (l : Lit) (i cur j : Nat), cur ≤ i →
      j < prems.length → l ∈ prems.getD j [] → i + j ≤ lastIncFold l i prems cur := by
  intro prems
  induction prems with
  | nil => intro l i cur j _ hj; simp at hj
  | cons cl rest ih =>
    intro l i cur j hcur hj hmem
    cases j with
    | zero =>
      simp only [List.getD] at hmem
      simp only [lastIncFold]
      simp at hmem
      simp only [hmem, if_true]
      have := lastIncFold_ge rest l (i + 1) i (by omega)
      omega
    | succ j' =>
      simp only [lastIncFold]
      have hj' : j' < rest.length := by simpa using hj
      have hmem' : l ∈ rest.getD j' [] := by simpa using hmem
      have h2 : (if l ∈ cl then i else cur) ≤ i + 1 := by split <;> omega
      have := ih l (i + 1) (if l ∈ cl then i else cur) j' h2 hj' hmem'
      omega

theorem lastIncFold_val :
    ∀ (prems : List (List Lit)) (l : Lit) (i cur : Nat),
      lastIncFold l i prems cur = cur ∨
        ∃ j, j < prems.length ∧ lastIncFold l i prems cur = i + j ∧ l ∈ prems.getD j [] := by
  intro prems
  induction prems with
  | nil => intro l i cur; left; simp [lastIncFold]
  | cons cl rest ih =>
    intro l i cur
    simp only [lastIncFold]
    by_cases hm : l ∈ cl
    · simp only [hm, if_true]
      rcases ih l (i + 1) i with h | ⟨j, hj, hv, hmem⟩
      · right; exact ⟨0, by simp, by omega, by simpa using hm⟩
      · right; exact ⟨j + 1, by simpa using hj, by omega, by simpa using hmem⟩
    · simp only [hm, if_false]
      rcases ih l (i + 1) cur with h | ⟨j, hj, hv, hmem⟩
      · left; exact h
      · right; exact ⟨j + 1, by simpa using hj, by omega, by simpa using hmem⟩

theorem elimFold_ge :
    ∀ (ps : List (Lit × Bool)) (l : Lit) (li i cur : Nat), cur ≤ i →
      cur ≤ elimFold l li i ps cur := by
  intro ps
  induction ps with
  | nil => intro l li i cur h; simp [elimFold]
  | cons ppol rest ih =>
    intro l li i cur h
    obtain ⟨p, pol⟩ := ppol
    simp only [elimFold]
    by_cases hm : l = pivotInCurrentLit p pol ∧ i + 1 > li
    · simp only [if_pos hm]
      exact le_trans (le_trans h (Nat.le_succ i)) (ih l li (i + 1) (i + 1) (le_refl _))
    · simp only [if_neg hm]
      exact ih l li (i + 1) cur (by omega)

theorem elimFold_qual_le :
    ∀ (ps : List (Lit × Bool)) (l : Lit) (li i cur j : Nat), cur ≤ i →
      j < ps.length →
      l = pivotInCurrentLit (ps.getD j dpivot).1 (ps.getD j dpivot).2 →
      li < i + j + 1 →
      i + j + 1 ≤ elimFold l li i ps cur := by
  intro ps
  induction ps with
  | nil => intro l li i cur j _ hj; simp at hj
  | cons ppol rest ih =>
    intro l li i cur j hcur hj hmatch hafter
    obtain ⟨p, pol⟩ := ppol
    cases j with
    | zero =>
      simp only [List.getD] at hmatch
      simp at hmatch
      simp only [elimFold]
      have hc : l = pivotInCurrentLit p pol ∧ i + 1 > li := ⟨hmatch, by omega⟩
      simp only [if_pos hc]
      have := elimFold_ge rest l li (i + 1) (i + 1) (le_refl _)
      omega
    | succ j' =>
      simp only [elimFold]
      have hj' : j' < rest.length := by simpa using hj
      have hmatch' : l = pivotInCurrentLit (rest.getD j' dpivot).1 (rest.getD j' dpivot).2 := by
        simpa using hmatch
      have h2 : (if l = pivotInCurrentLit p pol ∧ i + 1 > li then i + 1 else cur) ≤ i + 1 := by
        split <;> omega
      have := ih l li (i + 1) _ j' h2 hj' hmatch' (by omega)
      omega

theorem elimFold_val :
    ∀ (ps : List (Lit × Bool)) (l : Lit) (li i cur : Nat),
      elimFold l li i ps cur = cur ∨
        ∃ j, j < ps.length ∧ elimFold l li i ps cur = i + j + 1 ∧
          l = pivotInCurrentLit (ps.getD j dpivot).1 (ps.getD j dpivot).2 ∧
          li < i + j + 1 := by
  intro ps
  induction ps with
  | nil => intro l li i cur; left; simp [elimFold]
  | cons ppol rest ih =>
    intro l li i cur
    obtain ⟨p, pol⟩ := ppol
    simp only [elimFold]
    by_cases hm : l = pivotInCurrentLit p pol ∧ i + 1 > li
    · simp only [if_pos hm]
      rcases ih l li (i + 1) (i + 1) with h | ⟨j, hj, hv, hmatch, hafter⟩
      · right; exact ⟨0, by simp, by omega, by simpa using hm.1, by omega⟩
      · right; exact ⟨j + 1, by simpa using hj, by omega, by simpa using hmatch, by omega⟩
    · simp only [if_neg hm]
      rcases ih l li (i + 1) cur with h | ⟨j, hj, hv, hmatch, hafter⟩
      · left; exact h
      · right; exact ⟨j + 1, by simpa using hj, by omega, by simpa using hmatch, by omega⟩

/-- `eliminatesAt` unfolded to a positional characterization. -/
theorem eliminatesAt_iff (pivots : List (Lit × Bool)) (l : Lit) (m : Nat) :
    eliminatesAt pivots l m = true ↔
      ∃ j, j < pivots.length ∧ m = j + 1 ∧
        l = pivotInCurrentLit (pivots.getD j dpivot).1 (pivots.getD j dpivot).2 := by
  cases m with
  | zero => simp [eliminatesAt]
  | succ i =>
    simp only [eliminatesAt]
    cases hg : pivots.get? i with
    | none =>
      have : pivots.length ≤ i := by
        simpa using List.get?_eq_none.mp hg
      simp only [Bool.false_eq_true, false_iff]
      rintro ⟨j, hj, hm, _⟩
      omega
    | some ppol =>
      obtain ⟨p, pol⟩ := ppol
      have hlen : i < pivots.length := (List.get?_eq_some.mp hg).1
      have hgd : pivots.getD i dpivot = (p, pol) := by
        simp [List.getD, ← List.get?_eq_getElem?, hg]
      constructor
      · intro h
        refine ⟨i, hlen, rfl, ?_⟩
        rw [hgd]
        simpa using (decide_eq_true_eq.mp h).symm
      · rintro ⟨j, hj, hm, hmatch⟩
        have : j = i := by omega
        subst this
        rw [hgd] at hmatch
        simpa using hmatch.symm

/-- C3 (amended): for every crowding literal, `find_crowding_literals`
computes `last_inclusion` as the **highest** premise index containing
the literal (0 if none) and `eliminator` as the **largest** — not the
smallest — pivot-step index strictly after `last_inclusion` at which
the literal is eliminated (0 if none): both loops overwrite the
stored value at every matching index, so the last match wins. -/
theorem c3_crowding_literal_info :
    ∀ (naive target : List Lit) (premises : List (List Lit)) (pivots : List (Lit × Bool))
      (l : Lit) (info : CrowdingLiteralInfo),
      alookup (findCrowdingLiterals naive target premises pivots) l = some info →
      (l ∈ naive ∧ l ∉ target)
      ∧ (∀ j, j < premises.length → l ∈ premises.getD j [] → j ≤ info.lastInclusion)
      ∧ (info.lastInclusion = 0 ∨
          (info.lastInclusion < premises.length ∧ l ∈ premises.getD info.lastInclusion []))
      ∧ (∀ m, eliminatesAt pivots l m = true → info.lastInclusion < m → m ≤ info.eliminator)
      ∧ (info.eliminator = 0 ∨
          (eliminatesAt pivots l info.eliminator = true ∧
            info.lastInclusion < info.eliminator)) := by
  intro naive target premises pivots l info h
  unfold findCrowdingLiterals at h
  rw [setEliminators_lookup, setLastInclusions_lookup, alookup_const_map] at h
  by_cases hmem : l ∈ (naive.filter (fun x => decide (x ∉ target))).dedup
  · rw [if_pos hmem] at h
    simp only [Option.map_some'] at h
    have hinfo := Option.some_inj.mp h
    subst hinfo
    dsimp only
    refine ⟨?_, ?_, ?_, ?_, ?_⟩
    · simpa [List.mem_filter] using List.mem_dedup.mp hmem
    · intro j hj hmemj
      simpa using lastIncFold_mem_le premises l 0 0 j (le_refl 0) hj hmemj
    · rcases lastIncFold_val premises l 0 0 with hv | ⟨j, hj, hv, hmemj⟩
      · left; exact hv
      · right
        simp only [hv]
        exact ⟨by omega, by simpa using hmemj⟩
    · intro m hel hafter
      rcases (eliminatesAt_iff pivots l m).mp hel with ⟨j, hj, hm, hmatch⟩
      subst hm
      simpa using elimFold_qual_le pivots l _ 0 0 j (le_refl 0) hj hmatch (by omega)
    · rcases elimFold_val pivots l _ 0 0 with hv | ⟨j, hj, hv, hmatch, hafter⟩
      · left; exact hv
      · right
        simp only [hv]
        refine ⟨(eliminatesAt_iff pivots l _).mpr ⟨j, hj, by omega, hmatch⟩, by omega⟩
  · rw [if_neg hmem] at h
    simp at h

/-- C3 counterexample: the literal is eliminated at pivot-step
indices 1 and 2, both strictly after its last inclusion 0; the code
records the eliminator 2, not the smallest qualifying index 1 as the
claim states. -/
theorem c3_counterexample :
    alookup (findCrowdingLiterals c3naive c3target c3prems c3pivots) c3lit
        = some { lastInclusion := 0, eliminator := 2 }
      ∧ eliminatesAt c3pivots c3lit 1 = true ∧ (0 : Nat) < 1 ∧ (2 : Nat) ≠ 1 := by
  decide

/-- C3 witness: the amended theorem applied to the concrete
uncrowding instance. -/
theorem c3_crowding_literal_info_witness :
    (c3lit ∈ c3naive ∧ c3lit ∉ c3target)
    ∧ (∀ j, j < c3prems.length → c3lit ∈ c3prems.getD j [] → j ≤ (0 : Nat))
    ∧ ((0 : Nat) = 0 ∨ ((0 : Nat) < c3prems.length ∧ c3lit ∈ c3prems.getD 0 []))
    ∧ (∀ m, eliminatesAt c3pivots c3lit m = true → 0 < m → m ≤ 2)
    ∧ ((2 : Nat) = 0 ∨ (eliminatesAt c3pivots c3lit 2 = true ∧ (0 : Nat) < 2)) :=
  c3_crowding_literal_info c3naive c3target c3prems c3pivots c3lit
    { lastInclusion := 0, eliminator := 2 } (by decide)

/-- With fewer than two arguments per remaining premise, the loop of
`binarify_single_resolution` runs out of arguments (an unwrap panic
in the source, `none` here), whatever else happens first. -/
theorem binarifySingleGo_none_of_short_args :
    ∀ (rest : List ((Nat × Nat) × List Term)) (remap : Nat × Nat → Nat × Nat)
      (rootId : String) (d ns : Nat) (args : List ProofArg) (cur : List Term)
      (prev : Nat × Nat) (k : Nat),
      args.length < 2 * rest.length →
      binarifySingleGo remap rootId d ns rest args cur prev k = none := by
  intro rest
  induction rest with
  | nil => intro _ _ _ _ args _ _ _ h; simp at h
  | cons pnc rest' ih =>
    intro remap rootId d ns args cur prev k h
    obtain ⟨p, nc⟩ := pnc
    match args with
    | [] => simp [binarifySingleGo]
    | [pa] => simp [binarifySingleGo]
    | pa :: pb :: argsRest =>
      have hlen : argsRest.length < 2 * rest'.length := by simp at h; omega
      simp only [binarifySingleGo]
      cases hpa : pa.asTerm with
      | none => simp
      | some pivot =>
        cases hpb : pb.asTerm with
        | none => simp
        | some pol =>
          by_cases hb : pol.isBoolTrue <;> simp [hb] <;>
            [cases hrem : removeFirst cur pivot;
             cases hrem : removeFirst cur (notT pivot)] <;>
            simp [hrem, ih remap rootId d ns argsRest _ _ (k + 1) hlen]

/-- An assignment among the first `2 * (number of remaining
premises)` arguments makes the loop panic (`as_term().unwrap()`),
unless an earlier unwrap panics first; either way the result is
`none`. -/
theorem binarifySingleGo_none_of_assign :
    ∀ (rest : List ((Nat × Nat) × List Term)) (remap : Nat × Nat → Nat × Nat)
      (rootId : String) (d ns : Nat) (args : List ProofArg) (cur : List Term)
      (prev : Nat × Nat) (k j : Nat) (name : String) (t : Term),
      j < 2 * rest.length → args.get? j = some (.assign name t) →
      binarifySingleGo remap rootId d ns rest args cur prev k = none := by
  intro rest
  induction rest with
  | nil => intro _ _ _ _ _ _ _ _ j _ _ h _; simp at h
  | cons pnc rest' ih =>
    intro remap rootId d ns args cur prev k j name t hj hget
    obtain ⟨p, nc⟩ := pnc
    match args with
    | [] => simp [binarifySingleGo]
    | [pa] => simp [binarifySingleGo]
    | pa :: pb :: argsRest =>
      simp only [binarifySingleGo]
      cases hpa : pa.asTerm with
      | none => simp
      | some pivot =>
        cases hpb : pb.asTerm with
        | none => simp
        | some pol =>
          match j with
          | 0 =>
            simp at hget
            subst hget
            simp [ProofArg.asTerm] at hpa
          | 1 =>
            simp at hget
            subst hget
            simp [ProofArg.asTerm] at hpb
          | j' + 2 =>
            have hj' : j' < 2 * rest'.length := by simp at hj; omega
            have hget' : argsRest.get? j' = some (.assign name t) := by simpa using hget
            by_cases hb : pol.isBoolTrue <;> simp [hb] <;>
              [cases hrem : removeFirst cur pivot;
               cases hrem : removeFirst cur (notT pivot)] <;>
              simp [hrem, ih remap rootId d ns argsRest _ _ (k + 1) j' name t hj' hget']

/-- A pivot occurrence absent from the accumulated clause makes the
loop panic (`position(..).unwrap()`); the embedding returns `none`. -/
theorem binarifySingleGo_none_of_missing_pivot
    (remap : Nat × Nat → Nat × Nat) (rootId : String) (d ns : Nat)
    (p : Nat × Nat) (nc : List Term) (rest : List ((Nat × Nat) × List Term))
    (pivot pol : Term) (argsRest : List ProofArg) (cur : List Term)
    (prev : Nat × Nat) (k : Nat)
    (hrem : removeFirst cur (if pol.isBoolTrue then pivot else notT pivot) = none) :
    binarifySingleGo remap rootId d ns ((p, nc) :: rest)
      (.term pivot :: .term pol :: argsRest) cur prev k = none := by
  simp only [binarifySingleGo, ProofArg.asTerm]
  by_cases hb : pol.isBoolTrue <;> simp [hb] at hrem ⊢ <;> simp [hrem]

theorem removeFirstIfPresent_of_not_mem :
    ∀ (l : List Term) (t : Term), t ∉ l → removeFirstIfPresent l t = l := by
  intro l t
  induction l with
  | nil => intro h; simp [removeFirstIfPresent]
  | cons x xs ih =>
    intro h
    simp at h
    simp [removeFirstIfPresent, Ne.symm h.1, ih h.2]

/-- When the opposite pivot occurrence is absent from the right-hand
premise, the iteration silently appends the whole premise clause. -/
theorem binarifySingleGo_absent_right_ignored
    (remap : Nat × Nat → Nat × Nat) (rootId : String) (d ns : Nat)
    (p : Nat × Nat) (nc : List Term) (rest : List ((Nat × Nat) × List Term))
    (pivot pol : Term) (argsRest : List ProofArg) (cur : List Term)
    (prev : Nat × Nat) (k : Nat) (rem : List Term) (steps : List ProofStep)
    (hrem : removeFirst cur (if pol.isBoolTrue then pivot else notT pivot) = some rem)
    (habs : (if pol.isBoolTrue then notT pivot else pivot) ∉ nc)
    (h : binarifySingleGo remap rootId d ns ((p, nc) :: rest)
        (.term pivot :: .term pol :: argsRest) cur prev k = some steps) :
    ∃ e more, steps = e :: more ∧ e.clause = rem ++ nc := by
  simp only [binarifySingleGo, ProofArg.asTerm] at h
  by_cases hb : pol.isBoolTrue
  · simp [hb] at hrem habs
    simp [hb, hrem] at h
    split at h
    next more heq =>
      simp only [Option.some_inj] at h
      refine ⟨_, more, h.symm, ?_⟩
      simp [removeFirstIfPresent_of_not_mem nc _ habs]
    next heq => simp at h
  · simp [hb] at hrem habs
    simp [hb, hrem] at h
    split at h
    next more heq =>
      simp only [Option.some_inj] at h
      refine ⟨_, more, h.symm, ?_⟩
      simp [removeFirstIfPresent_of_not_mem nc _ habs]
    next heq => simp at h

/-- `getLastD` of a non-empty list does not depend on the default. -/
theorem getLastD_ne_nil {A : Type} :
    ∀ (l : List A) (x y : A), l ≠ [] → l.getLastD x = l.getLastD y := by
  intro l
  induction l with
  | nil => intro x y h; exact absurd rfl h
  | cons a rest ih =>
    intro x y _
    cases rest with
    | nil => rfl
    | cons b rest' =>
      rw [List.getLastD_cons]
      conv_rhs => rw [List.getLastD_cons]

/-- The shape of the steps emitted by the loop of
`binarify_single_resolution`: one step per remaining premise, each a
binary `resolution` step; intermediate ids continue the `.t<k>`
pattern and the final step carries the root id; the final clause is
the spec's accumulator (§4.H.2). -/
theorem binarifySingleGo_shape :
    ∀ (rest : List ((Nat × Nat) × List Term)) (remap : Nat × Nat → Nat × Nat)
      (rootId : String) (d ns : Nat) (args : List ProofArg) (cur : List Term)
      (prev : Nat × Nat) (k : Nat) (steps : List ProofStep),
      binarifySingleGo remap rootId d ns rest args cur prev k = some steps →
      steps.length = rest.length
      ∧ (∀ st ∈ steps, st.rule = "resolution" ∧ st.premises.length = 2)
      ∧ (∀ m, m + 1 < steps.length →
          (steps.getD m dstep).id = rootId ++ ".t" ++ toString (k + m + 1))
      ∧ (rest ≠ [] → (steps.getLastD dstep).id = rootId)
      ∧ (rest = [] → steps = [])
      ∧ (rest ≠ [] →
          specAccumulate cur (rest.map Prod.snd) args
            = some ((steps.getLastD dstep).clause)) := by
  intro rest
  induction rest with
  | nil =>
    intro remap rootId d ns args cur prev k steps h
    simp [binarifySingleGo] at h
    subst h
    simp
  | cons pnc rest' ih =>
    intro remap rootId d ns args cur prev k steps h
    obtain ⟨p, nc⟩ := pnc
    match args with
    | [] => simp [binarifySingleGo] at h
    | [pa] => simp [binarifySingleGo] at h
    | pa :: pb :: argsRest =>
      simp only [binarifySingleGo] at h
      cases hpa : pa.asTerm with
      | none => rw [hpa] at h; simp at h
      | some pivot =>
        cases hpb : pb.asTerm with
        | none => rw [hpa, hpb] at h; simp at h
        | some pol =>
          rw [hpa, hpb] at h
          by_cases hb : pol.isBoolTrue
          all_goals
            cases hrem : removeFirst cur (if pol.isBoolTrue then pivot else notT pivot) with
            | none =>
                simp [hb] at hrem h
                simp [hrem] at h
            | some rem =>
                simp [hb] at hrem h
                simp only [hrem] at h
                split at h
                next more heq =>
                  simp only [Option.some_inj] at h
                  subst h
                  obtain ⟨ihlen, ihshape, ihids, ihlast, ihnil, ihclause⟩ :=
                    ih remap rootId d ns argsRest _ _ (k + 1) more heq
                  refine ⟨by simp [ihlen], ?_, ?_, ?_, by simp, ?_⟩
                  · intro st hst
                    rcases List.mem_cons.mp hst with hst | hst
                    · subst hst; exact ⟨rfl, rfl⟩
                    · exact ihshape st hst
                  · intro m hm
                    cases m with
                    | zero =>
                      have hmore : more ≠ [] := by
                        intro hnil2
                        rw [hnil2] at hm
                        simp at hm
                      have hrest' : rest' ≠ [] := by
                        intro hre
                        rw [hre] at ihlen
                        simp at ihlen
                        exact hmore ihlen
                      simp [List.getD_cons_zero, hrest']
                    | succ m' =>
                      have hm' : m' + 1 < more.length := by
                        simp at hm
                        omega
                      have := ihids m' hm'
                      have harith : k + 1 + m' + 1 = k + (m' + 1) + 1 := by omega
                      rw [harith] at this
                      simpa [List.getD_cons_succ] using this
                  · intro _
                    by_cases hre : rest' = []
                    · have : more = [] := by
                        rw [hre] at ihlen
                        simpa using List.eq_nil_of_length_eq_zero (by simpa using ihlen)
                      subst this
                      simp [List.getLastD, hre]
                    · have hmore : more ≠ [] := by
                        intro hnil2
                        rw [hnil2] at ihlen
                        exact hre (List.eq_nil_of_length_eq_zero (by simpa using ihlen.symm))
                      rw [List.getLastD_cons, getLastD_ne_nil more _ dstep hmore]
                      exact ihlast hre
                  · intro _
                    simp only [List.map_cons, specAccumulate, hpa, hpb, hb,
                      Bool.false_eq_true, if_true, if_false, hrem]
                    by_cases hre : rest' = []
                    · have : more = [] := by
                        rw [hre] at ihlen
                        simpa using List.eq_nil_of_length_eq_zero (by simpa using ihlen)
                      subst this
                      rw [hre]
                      simp [specAccumulate, List.getLastD]
                    · have hmore : more ≠ [] := by
                        intro hnil2
                        rw [hnil2] at ihlen
                        exact hre (List.eq_nil_of_length_eq_zero (by simpa using ihlen.symm))
                      rw [List.getLastD_cons, getLastD_ne_nil more _ dstep hmore]
                      exact ihclause hre
                next heq => simp at h

/-- C2 (amended): a `resolution` step with `n > 2` premises expands
into exactly `n − 1` binary `resolution` steps; intermediates are
named `<root>.t<k>` and the last step takes the root id.  The last
emitted clause is the accumulator obtained by applying the pivots in
order (the spec's §4.H.2 loop) — it equals the step's own declared
clause exactly when that clause is the accumulator, which the source
never checks. -/
theorem c2_binarify_resolution_shape :
    ∀ (remap : Nat × Nat → Nat × Nat) (d ns : Nat) (s : ProofStep)
      (premiseClauses : List (List Term)) (steps : List ProofStep),
      2 < s.premises.length →
      premiseClauses.length = s.premises.length →
      binarifySingleResolution remap d ns s premiseClauses = some steps →
      steps.length = s.premises.length - 1
      ∧ (∀ st ∈ steps, st.rule = "resolution" ∧ st.premises.length = 2)
      ∧ (∀ m, m + 1 < steps.length →
          (steps.getD m dstep).id = s.id ++ ".t" ++ toString (m + 1))
      ∧ (steps.getLastD dstep).id = s.id
      ∧ specAccumulate (premiseClauses.headD []) premiseClauses.tail s.args
          = some ((steps.getLastD dstep).clause)
      ∧ ((steps.getLastD dstep).clause = s.clause ↔
          specAccumulate (premiseClauses.headD []) premiseClauses.tail s.args
            = some s.clause) := by
  intro remap d ns s premiseClauses steps hn hlen h
  cases hps : s.premises with
  | nil => rw [hps] at hn; simp at hn
  | cons p0 prest =>
    cases hpc : premiseClauses with
    | nil => rw [hps, hpc] at hlen; simp at hlen
    | cons c0 crest =>
      rw [hps, hpc] at hlen
      have hlen' : crest.length = prest.length := by simpa using hlen
      unfold binarifySingleResolution at h
      rw [hps, hpc] at h
      have hzlen : (prest.zip crest).length = prest.length := by
        rw [List.length_zip]
        omega
      have hn' : 2 < (p0 :: prest).length := by rw [← hps]; exact hn
      have hzne : prest.zip crest ≠ [] := by
        intro hz
        rw [hz] at hzlen
        simp at hzlen
        simp only [List.length_cons] at hn'
        omega
      have hsnd : (prest.zip crest).map Prod.snd = crest := by
        apply List.map_snd_zip
        omega
      obtain ⟨slen, sshape, sids, slast, _, sclause⟩ :=
        binarifySingleGo_shape (prest.zip crest) remap s.id d ns s.args c0 p0 0 steps h
      refine ⟨by rw [slen, hzlen]; simp, sshape, ?_, slast hzne, ?_, ?_⟩
      · intro m hm
        simpa using sids m hm
      · simp only [List.headD_cons, List.tail_cons]
        rw [← hsnd]
        exact sclause hzne
      · have hspec := sclause hzne
        rw [hsnd] at hspec
        simp only [List.headD_cons, List.tail_cons]
        constructor
        · intro hcl
          rw [← hcl]
          exact hspec
        · intro hcl
          have := hspec.symm.trans hcl
          exact Option.some_inj.mp this

/-- C2 counterexample: a resolution step whose declared clause
`(cl f)` is not the naive resolvent; the last emitted step's clause
is the computed empty clause, not the declared one, refuting the
claim that the last clause always equals the original step's
clause. -/
theorem c2_counterexample :
    binarifySingleResolution (fun r => r) 0 3 c2Step c2Clauses = some c2Out
    ∧ (c2Out.getLastD dstep).clause = [] ∧ c2Step.clause = [varF]
    ∧ ([] : List Term) ≠ [varF] := by decide

/-- C2 witness: the amended shape theorem applied to the concrete
step. -/
theorem c2_binarify_resolution_shape_witness :
    c2Out.length = c2Step.premises.length - 1
    ∧ (∀ st ∈ c2Out, st.rule = "resolution" ∧ st.premises.length = 2)
    ∧ (∀ m, m + 1 < c2Out.length →
        (c2Out.getD m dstep).id = c2Step.id ++ ".t" ++ toString (m + 1))
    ∧ (c2Out.getLastD dstep).id = c2Step.id
    ∧ specAccumulate (c2Clauses.headD []) c2Clauses.tail c2Step.args
        = some ((c2Out.getLastD dstep).clause)
    ∧ ((c2Out.getLastD dstep).clause = c2Step.clause ↔
        specAccumulate (c2Clauses.headD []) c2Clauses.tail c2Step.args
          = some c2Step.clause) :=
  c2_binarify_resolution_shape (fun r => r) 0 3 c2Step c2Clauses c2Out
    (by decide) (by decide) (by decide)

/-- C10 (amended): `binarify_single_resolution` has no error channel;
its failure modes are panics, embedded as `none`: (a) fewer than
`2 * (n − 1)` arguments, (b) an assignment among the **consumed**
arguments (a trailing assignment is never inspected — see the
counterexample), (c) a pivot occurrence missing from the accumulated
clause; and (d) a pivot occurrence missing from the right-hand
premise is silently ignored, appending the whole premise clause. -/
theorem c10_binarify_single_panics :
    (∀ (remap : Nat × Nat → Nat × Nat) (d ns : Nat) (s : ProofStep)
        (premiseClauses : List (List Term)),
        premiseClauses.length = s.premises.length →
        s.args.length < 2 * (s.premises.length - 1) →
        binarifySingleResolution remap d ns s premiseClauses = none)
    ∧ (∀ (remap : Nat × Nat → Nat × Nat) (d ns : Nat) (s : ProofStep)
        (premiseClauses : List (List Term)) (j : Nat) (name : String) (t : Term),
        premiseClauses.length = s.premises.length →
        j < 2 * (s.premises.length - 1) → s.args.get? j = some (.assign name t) →
        binarifySingleResolution remap d ns s premiseClauses = none)
    ∧ (∀ (remap : Nat × Nat → Nat × Nat) (rootId : String) (d ns : Nat)
        (p : Nat × Nat) (nc : List Term) (rest : List ((Nat × Nat) × List Term))
        (pivot pol : Term) (argsRest : List ProofArg) (cur : List Term)
        (prev : Nat × Nat) (k : Nat),
        removeFirst cur (if pol.isBoolTrue then pivot else notT pivot) = none →
        binarifySingleGo remap rootId d ns ((p, nc) :: rest)
          (.term pivot :: .term pol :: argsRest) cur prev k = none)
    ∧ (∀ (remap : Nat × Nat → Nat × Nat) (rootId : String) (d ns : Nat)
        (p : Nat × Nat) (nc : List Term) (rest : List ((Nat × Nat) × List Term))
        (pivot pol : Term) (argsRest : List ProofArg) (cur : List Term)
        (prev : Nat × Nat) (k : Nat) (rem : List Term) (steps : List ProofStep),
        removeFirst cur (if pol.isBoolTrue then pivot else notT pivot) = some rem →
        (if pol.isBoolTrue then notT pivot else pivot) ∉ nc →
        binarifySingleGo remap rootId d ns ((p, nc) :: rest)
          (.term pivot :: .term pol :: argsRest) cur prev k = some steps →
        ∃ e more, steps = e :: more ∧ e.clause = rem ++ nc) := by
  refine ⟨?_, ?_, ?_, ?_⟩
  · intro remap d ns s premiseClauses hlen hargs
    cases hps : s.premises with
    | nil =>
      cases hpc : premiseClauses with
      | nil => simp [binarifySingleResolution, hps, hpc]
      | cons c0 crest => rw [hps, hpc] at hlen; simp at hlen
    | cons p0 prest =>
      cases hpc : premiseClauses with
      | nil => rw [hps, hpc] at hlen; simp at hlen
      | cons c0 crest =>
        unfold binarifySingleResolution
        rw [hps]
        apply binarifySingleGo_none_of_short_args
        rw [hps, hpc] at hlen
        rw [hps] at hargs
        rw [List.length_zip]
        simp at hlen hargs
        omega
  · intro remap d ns s premiseClauses j name t hlen hj hget
    cases hps : s.premises with
    | nil =>
      cases hpc : premiseClauses with
      | nil => simp [binarifySingleResolution, hps, hpc]
      | cons c0 crest => rw [hps, hpc] at hlen; simp at hlen
    | cons p0 prest =>
      cases hpc : premiseClauses with
      | nil => rw [hps, hpc] at hlen; simp at hlen
      | cons c0 crest =>
        unfold binarifySingleResolution
        rw [hps]
        apply binarifySingleGo_none_of_assign (prest.zip crest) remap s.id d ns
          s.args c0 p0 0 j name t
        · rw [hps, hpc] at hlen
          rw [hps] at hj
          rw [List.length_zip]
          simp at hlen hj
          omega
        · exact hget
  · intro remap rootId d ns p nc rest pivot pol argsRest cur prev k hrem
    exact binarifySingleGo_none_of_missing_pivot remap rootId d ns p nc rest pivot pol
      argsRest cur prev k hrem
  · intro remap rootId d ns p nc rest pivot pol argsRest cur prev k rem steps hrem habs h
    exact binarifySingleGo_absent_right_ignored remap rootId d ns p nc rest pivot pol
      argsRest cur prev k rem steps hrem habs h

/-- C10 counterexample: `c10Step` carries an assignment argument (at
position 4, beyond the first `2 * (n − 1) = 4` consumed arguments),
yet the expansion succeeds without a panic — refuting the claim that
any assignment argument panics. -/
theorem c10_counterexample :
    c10Step.args.get? 4 = some (.assign "x" varA)
    ∧ binarifySingleResolution (fun r => r) 0 3 c10Step c10Clauses = some c10Out := by
  decide

/-- C10 witness: the four failure modes exercised on concrete
inputs. -/
theorem c10_binarify_single_panics_witness :
    binarifySingleResolution (fun r => r) 0 3 c10ShortStep c10Clauses = none
    ∧ binarifySingleResolution (fun r => r) 0 3 c10AssignStep c10Clauses = none
    ∧ binarifySingleGo (fun r => r) "t" 0 3 [((0, 1), [notT varA])]
        [.term varA, .term (boolConstant true)] [varB] (0, 0) 0 = none
    ∧ (∃ e more,
        ([{ id := "t", clause := [varB, varC], rule := "resolution",
            premises := [(0, 0), (0, 1)],
            args := [.term varA, .term (boolConstant true)],
            discharge := [] }] : List ProofStep) = e :: more
          ∧ e.clause = [varB] ++ [varC]) :=
  ⟨c10_binarify_single_panics.1 (fun r => r) 0 3 c10ShortStep c10Clauses
      (by decide) (by decide),
   c10_binarify_single_panics.2.1 (fun r => r) 0 3 c10AssignStep c10Clauses 2 "x" varB
      (by decide) (by decide) (by decide),
   c10_binarify_single_panics.2.2.1 (fun r => r) "t" 0 3 (0, 1) [notT varA] []
      varA (boolConstant true) [] [varB] (0, 0) 0 (by decide),
   c10_binarify_single_panics.2.2.2 (fun r => r) "t" 0 3 (0, 1) [varC] []
      varA (boolConstant true) [] [varA, varB] (0, 0) 0 [varB] _ (by decide) (by decide)
      (by decide)⟩

/- Helper lemmas for the sequential premise checks of `trans`. -/

theorem collectPremiseEqualities_cons_nonunit (p : ProofNode) (ps : List ProofNode)
    (h : p.clause.length ≠ 1) :
    collectPremiseEqualities (p :: ps) = .error .assertionFailure := by
  cases hc : p.clause with
  | nil => simp [collectPremiseEqualities, hc]
  | cons d rest =>
    cases rest with
    | nil => rw [hc] at h; simp at h
    | cons d2 rest2 => simp [collectPremiseEqualities, hc]

theorem collectPremiseEqualities_cons_noneq (p : ProofNode) (ps : List ProofNode)
    (d : Term) (h1 : p.clause = [d]) (h2 : matchTermEq d = none) :
    collectPremiseEqualities (p :: ps)
      = .error (.checker (.termOfWrongForm "(= t u)" d)) := by
  simp [collectPremiseEqualities, h1, h2]

theorem collectPremiseEqualities_append_error (ps₁ ps₂ : List ProofNode)
    (E : TransError)
    (h1 : ∀ q ∈ ps₁, ∃ c e, q.clause = [c] ∧ matchTermEq c = some e)
    (h2 : collectPremiseEqualities ps₂ = .error E) :
    collectPremiseEqualities (ps₁ ++ ps₂) = .error E := by
  induction ps₁ with
  | nil => simpa using h2
  | cons q qs ih =>
    obtain ⟨c, e, hc, he⟩ := h1 q (by simp)
    have hrec := ih (fun r hr => h1 r (by simp [hr]))
    simp [collectPremiseEqualities, hc, he, hrec]
    rfl

theorem trans_error_of_collect (stp : StepNode) (c : Term) (concl : Term × Term)
    (E : TransError) (h1 : stp.clause = [c]) (h2 : matchTermEq c = some concl)
    (h3 : collectPremiseEqualities stp.premises = .error E) :
    trans stp = .error E := by
  simp [trans, h1, h2, h3]
  rfl

/-- C9 (amended): the checks of `trans` run sequentially in source
order: (1) a step clause that is not a unit panics before anything
else; (2) a unit step clause that is not an equality returns
`TermOfWrongForm` regardless of the premises; then the premises are
inspected in order, each first asserted to have a unit clause (panic
otherwise) and only then matched as an equality (`TermOfWrongForm`
otherwise), so (3) after a prefix of unit-equality premises a
non-unit premise panics, and (4) a unit non-equality premise returns
the checker error. -/
theorem c9_trans_check_order :
    (∀ stp : StepNode, stp.clause.length ≠ 1 →
      trans stp = .error .assertionFailure)
    ∧ (∀ (stp : StepNode) (c : Term), stp.clause = [c] → matchTermEq c = none →
        trans stp = .error (.checker (.termOfWrongForm "(= t u)" c)))
    ∧ (∀ (stp : StepNode) (c : Term) (concl : Term × Term)
        (ps₁ ps₂ : List ProofNode) (p : ProofNode),
        stp.clause = [c] → matchTermEq c = some concl →
        stp.premises = ps₁ ++ p :: ps₂ →
        (∀ q ∈ ps₁, ∃ d e, q.clause = [d] ∧ matchTermEq d = some e) →
        p.clause.length ≠ 1 →
        trans stp = .error .assertionFailure)
    ∧ (∀ (stp : StepNode) (c : Term) (concl : Term × Term)
        (ps₁ ps₂ : List ProofNode) (p : ProofNode) (d : Term),
        stp.clause = [c] → matchTermEq c = some concl →
        stp.premises = ps₁ ++ p :: ps₂ →
        (∀ q ∈ ps₁, ∃ d e, q.clause = [d] ∧ matchTermEq d = some e) →
        p.clause = [d] → matchTermEq d = none →
        trans stp = .error (.checker (.termOfWrongForm "(= t u)" d))) := by
  refine ⟨?_, ?_, ?_, ?_⟩
  · intro stp h
    cases hc : stp.clause with
    | nil => simp [trans, hc]
    | cons c rest =>
      cases rest with
      | nil => rw [hc] at h; simp at h
      | cons c2 rest2 => simp [trans, hc]
  · intro stp c h1 h2
    simp [trans, h1, h2]
  · intro stp c concl ps₁ ps₂ p h1 h2 hps hpre hp
    apply trans_error_of_collect stp c concl _ h1 h2
    rw [hps]
    exact collectPremiseEqualities_append_error ps₁ (p :: ps₂) _ hpre
      (collectPremiseEqualities_cons_nonunit p ps₂ hp)
  · intro stp c concl ps₁ ps₂ p d h1 h2 hps hpre hp hd
    apply trans_error_of_collect stp c concl _ h1 h2
    rw [hps]
    exact collectPremiseEqualities_append_error ps₁ (p :: ps₂) _ hpre
      (collectPremiseEqualities_cons_noneq p ps₂ d hp hd)

/-- C9 counterexample: a step whose own clause is a unit
non-equality while a premise clause has two literals returns the
checker error `TermOfWrongForm` and does not panic — refuting the
claim that any non-unit clause panics and that the checker error
requires all clauses to be unit. -/
theorem c9_counterexample :
    c9Step.clause = [varA] ∧ matchTermEq varA = none
    ∧ (c9Step.premises.headD (.assume "" varA)).clause.length = 2
    ∧ trans c9Step = .error (.checker (.termOfWrongForm "(= t u)" varA)) := by
  decide

/-- C9 witness: the four sequential-check behaviors on concrete
steps. -/
theorem c9_trans_check_order_witness :
    trans (transNode [] []) = .error .assertionFailure
    ∧ trans c9Step = .error (.checker (.termOfWrongForm "(= t u)" varA))
    ∧ trans c9bStep = .error .assertionFailure
    ∧ trans c9cStep = .error (.checker (.termOfWrongForm "(= t u)" varB)) :=
  ⟨c9_trans_check_order.1 (transNode [] []) (by decide),
   c9_trans_check_order.2.1 c9Step varA (by decide) (by decide),
   c9_trans_check_order.2.2.1 c9bStep (eqT varA varC) (varA, varC)
      [leafNode "p1" [eqT varA varB]] [] (leafNode "p2" []) (by decide) (by decide)
      (by decide)
      (fun q hq => by
        simp at hq
        subst hq
        exact ⟨eqT varA varB, (varA, varB), rfl, rfl⟩)
      (by decide),
   c9_trans_check_order.2.2.2 c9cStep (eqT varA varC) (varA, varC)
      [leafNode "p1" [eqT varA varB]] [] (leafNode "p2" [varB]) varB (by decide)
      (by decide) (by decide)
      (fun q hq => by
        simp at hq
        subst hq
        exact ⟨eqT varA varB, (varA, varB), rfl, rfl⟩)
      (by decide) (by decide)⟩

/-- C5: one iteration of the chain search of `find_and_trace_chain`
is greedy with leftmost tie-breaking: (1) when the two endpoints are
already equal the loop returns immediately, consuming zero further
premises and leaving the arrays untouched; (2) `findLinkFrom` returns
`none` exactly when no remaining equality touches the endpoint;
(3) when it returns index `j`, `j` is in bounds, every earlier
remaining equality fails to touch the endpoint, and the one at `j`
touches it; (4) when no link exists and the endpoints differ the loop
fails with `BrokenTransitivityChain(t, u)`; (5) when a link exists
the loop swaps it to the front and recurses past it. -/
theorem c5_greedy_leftmost :
    (∀ (u : Term) (eqs : List (Term × Term)) (prems : List ProofNode),
      findAndTraceChain (u, u) eqs prems = .ok (false, 0, [], eqs, prems))
    ∧ (∀ (t : Term) (eqs : List (Term × Term)),
        findLinkFrom t eqs = none ↔ ∀ e ∈ eqs, e.1 ≠ t ∧ e.2 ≠ t)
    ∧ (∀ (t : Term) (eqs : List (Term × Term)) (j : Nat) (nl : Term) (f : Bool),
        findLinkFrom t eqs = some (j, nl, f) →
        j < eqs.length
        ∧ (∀ j' < j, (eqs.getD j' (t, t)).1 ≠ t ∧ (eqs.getD j' (t, t)).2 ≠ t)
        ∧ ((eqs.getD j (t, t)).1 = t ∨ (eqs.getD j (t, t)).2 = t))
    ∧ (∀ (c1 t : Term) (fuel : Nat) (eqs : List (Term × Term))
        (prems : List ProofNode) (accE : List (Term × Term)) (accP : List ProofNode)
        (r : Bool) (fl : List Nat),
        t ≠ c1 → findLinkFrom t eqs = none →
        fatcGo c1 (fuel + 1) t eqs prems accE accP r fl
          = .error (.brokenTransitivityChain t c1))
    ∧ (∀ (c1 t : Term) (fuel : Nat) (eqs : List (Term × Term))
        (prems : List ProofNode) (accE : List (Term × Term)) (accP : List ProofNode)
        (r : Bool) (fl : List Nat) (j : Nat) (nl : Term) (f : Bool),
        t ≠ c1 → findLinkFrom t eqs = some (j, nl, f) →
        fatcGo c1 (fuel + 1) t eqs prems accE accP r fl
          = fatcGo c1 fuel nl (swapFront eqs j).tail (swapFront prems j).tail
              ((swapFront eqs j).headD (t, t) :: accE)
              ((swapFront prems j).headD (.assume "" t) :: accP)
              (r || decide (j ≠ 0)) (if f then fl ++ [accE.length] else fl)) := by
  refine ⟨?_, ?_, ?_, ?_, ?_⟩
  · intro u eqs prems
    simp [findAndTraceChain, fatcGo]
  · intro t eqs
    induction eqs with
    | nil => simp [findLinkFrom]
    | cons e rest ih =>
      obtain ⟨a, b⟩ := e
      by_cases ha : a = t
      · simp [findLinkFrom, ha]
      · by_cases hb : b = t
        · simp [findLinkFrom, ha, hb]
        · cases hr : findLinkFrom t rest with
          | none =>
            simp [findLinkFrom, ha, hb, hr]
            exact fun x y hxy => ih.mp hr (x, y) hxy
          | some v =>
            obtain ⟨j, nl, f⟩ := v
            constructor
            · intro hnone
              have hsome : findLinkFrom t ((a, b) :: rest) = some (j + 1, nl, f) := by
                simp [findLinkFrom, ha, hb, hr]
              rw [hnone] at hsome
              exact Option.noConfusion hsome
            · intro hall
              have := ih.mpr (fun e he => hall e (List.mem_cons_of_mem _ he))
              rw [hr] at this
              exact Option.noConfusion this
  · intro t eqs
    induction eqs with
    | nil => intro j nl f h; simp [findLinkFrom] at h
    | cons e rest ih =>
      obtain ⟨a, b⟩ := e
      intro j nl f h
      by_cases ha : a = t
      · simp [findLinkFrom, ha] at h
        obtain ⟨hj, _, _⟩ := h
        subst hj
        refine ⟨by simp, by omega, ?_⟩
        simp [List.getD, ha]
      · by_cases hb : b = t
        · simp [findLinkFrom, ha, hb] at h
          obtain ⟨hj, _, _⟩ := h
          subst hj
          refine ⟨by simp, by omega, ?_⟩
          simp [List.getD, hb]
        · simp only [findLinkFrom, if_neg ha, if_neg hb] at h
          cases hr : findLinkFrom t rest with
          | none => rw [hr] at h; exact Option.noConfusion h
          | some v =>
            obtain ⟨j₀, nl₀, f₀⟩ := v
            rw [hr] at h
            simp only [Option.some_inj, Prod.mk.injEq] at h
            obtain ⟨hj, _, _⟩ := h
            obtain ⟨hlt, hpre, hmatch⟩ := ih j₀ nl₀ f₀ hr
            refine ⟨?_, ?_, ?_⟩
            · rw [← hj]
              simp
              omega
            · intro j' hj'
              rw [← hj] at hj'
              cases j' with
              | zero => simpa [List.getD] using ⟨ha, hb⟩
              | succ j'' =>
                have := hpre j'' (by omega)
                simpa [List.getD] using this
            · rw [← hj]
              simpa [List.getD] using hmatch
  · intro c1 t fuel eqs prems accE accP r fl hne hnone
    simp [fatcGo, hne, hnone]
  · intro c1 t fuel eqs prems accE accP r fl j nl f hne hsome
    simp [fatcGo, hne, hsome]

/-- C5 witness: the iteration behaviors on concrete data (the spec's
scenario 3: premises `(= b a), (= a c)` seen from endpoint `a`). -/
theorem c5_greedy_leftmost_witness :
    findAndTraceChain (varA, varA) [] [] = .ok (false, 0, [], [], [])
    ∧ (findLinkFrom varA [(varB, varC)] = none
        ↔ ∀ e ∈ [(varB, varC)], e.1 ≠ varA ∧ e.2 ≠ varA)
    ∧ (0 < ([(varB, varA), (varA, varC)] : List (Term × Term)).length
        ∧ (∀ j' < 0,
            (([(varB, varA), (varA, varC)] : List (Term × Term)).getD j'
              (varA, varA)).1 ≠ varA
            ∧ (([(varB, varA), (varA, varC)] : List (Term × Term)).getD j'
              (varA, varA)).2 ≠ varA)
        ∧ ((([(varB, varA), (varA, varC)] : List (Term × Term)).getD 0
              (varA, varA)).1 = varA
            ∨ (([(varB, varA), (varA, varC)] : List (Term × Term)).getD 0
              (varA, varA)).2 = varA))
    ∧ fatcGo varC 1 varA [] [] [] [] false []
        = .error (.brokenTransitivityChain varA varC)
    ∧ fatcGo varC 2 varA [(varB, varA), (varA, varC)]
        [leafNode "p1" [eqT varB varA], leafNode "p2" [eqT varA varC]] [] [] false []
        = fatcGo varC 1 varB
            (swapFront [(varB, varA), (varA, varC)] 0).tail
            (swapFront [leafNode "p1" [eqT varB varA],
              leafNode "p2" [eqT varA varC]] 0).tail
            ((swapFront [(varB, varA), (varA, varC)] 0).headD (varA, varA) :: [])
            ((swapFront [leafNode "p1" [eqT varB varA],
              leafNode "p2" [eqT varA varC]] 0).headD (.assume "" varA) :: [])
            (false || decide (0 ≠ 0))
            (if true then [] ++ [([] : List (Term × Term)).length] else []) :=
  ⟨c5_greedy_leftmost.1 varA [] [],
   c5_greedy_leftmost.2.1 varA [(varB, varC)],
   c5_greedy_leftmost.2.2.1 varA [(varB, varA), (varA, varC)] 0 varB true (by decide),
   c5_greedy_leftmost.2.2.2.1 varC varA 0 [] [] [] [] false [] (by decide) (by decide),
   c5_greedy_leftmost.2.2.2.2 varC varA 1 [(varB, varA), (varA, varC)]
     [leafNode "p1" [eqT varB varA], leafNode "p2" [eqT varA varC]] [] [] false []
     0 varB true (by decide) (by decide)⟩

/- Helper lemmas for the chain search and the flip loop. -/

theorem except_bind_eq_ok {E A B : Type} (m : Except E A) (f : A → Except E B) (b : B)
    (h : (m >>= f) = .ok b) : ∃ a, m = .ok a ∧ f a = .ok b := by
  cases m with
  | error e => exact Except.noConfusion h
  | ok a => exact ⟨a, rfl, h⟩

theorem except_mapError_eq_ok {E F A : Type} (g : E → F) (m : Except E A) (b : A)
    (h : Except.mapError g m = .ok b) : m = .ok b := by
  cases m with
  | error e => exact Except.noConfusion h
  | ok a => simpa [Except.mapError] using h

theorem matchTermEq_some (c a b : Term) (h : matchTermEq c = some (a, b)) :
    c = eqT a b := by
  unfold matchTermEq at h
  split at h
  · simp only [Option.some_inj, Prod.mk.injEq] at h
    obtain ⟨h1, h2⟩ := h
    subst h1
    subst h2
    rfl
  · exact Option.noConfusion h

theorem findLinkFrom_some_get :
    ∀ (t : Term) (eqs : List (Term × Term)) (j : Nat) (nl : Term) (f : Bool),
      findLinkFrom t eqs = some (j, nl, f) →
      eqs.get? j = some (if f then (nl, t) else (t, nl)) := by
  intro t eqs
  induction eqs with
  | nil => intro j nl f h; simp [findLinkFrom] at h
  | cons e rest ih =>
    obtain ⟨a, b⟩ := e
    intro j nl f h
    by_cases ha : a = t
    · simp [findLinkFrom, ha] at h
      obtain ⟨hj, hnl, hf⟩ := h
      subst hj
      subst hnl
      subst hf
      simp [ha]
    · by_cases hb : b = t
      · simp [findLinkFrom, ha, hb] at h
        obtain ⟨hj, hnl, hf⟩ := h
        subst hj
        subst hnl
        subst hf
        simp [hb]
      · simp only [findLinkFrom, if_neg ha, if_neg hb] at h
        cases hr : findLinkFrom t rest with
        | none => rw [hr] at h; exact Option.noConfusion h
        | some v =>
          obtain ⟨j₀, nl₀, f₀⟩ := v
          rw [hr] at h
          simp only [Option.some_inj, Prod.mk.injEq] at h
          obtain ⟨hj, hnl, hf⟩ := h
          subst hnl
          subst hf
          rw [← hj]
          simpa using ih j₀ nl₀ f₀ hr

theorem findLinkFrom_some_lt (t : Term) (eqs : List (Term × Term)) (j : Nat)
    (nl : Term) (f : Bool) (h : findLinkFrom t eqs = some (j, nl, f)) :
    j < eqs.length := by
  have := findLinkFrom_some_get t eqs j nl f h
  by_contra hge
  rw [List.get?_eq_none.mpr (by omega)] at this
  exact Option.noConfusion this

theorem swapFront_length {A : Type} (l : List A) (j : Nat) :
    (swapFront l j).length = l.length := by
  unfold swapFront
  cases l.get? j <;> simp

theorem mem_swapFront {A : Type} (l : List A) (j : Nat) (x : A)
    (h : x ∈ swapFront l j) : x ∈ l := by
  unfold swapFront at h
  cases hg : l.get? j with
  | none => rw [hg] at h; exact h
  | some y =>
    rw [hg] at h
    rcases List.mem_or_eq_of_mem_set h with h2 | h2
    · rcases List.mem_or_eq_of_mem_set h2 with h3 | h3
      · exact h3
      · subst h3
        cases l with
        | nil => exact Option.noConfusion hg
        | cons z zs => exact List.mem_cons_self z zs
    · subst h2
      exact List.get?_mem hg

theorem swapFront_headD {A : Type} (l : List A) (j : Nat) (d : A) (h : j < l.length) :
    (swapFront l j).headD d = l.getD j d := by
  cases hg : l.get? j with
  | none =>
    have := List.get?_eq_none.mp hg
    omega
  | some y =>
    have hget : l.getD j d = y := by
      simp [List.getD, ← List.get?_eq_getElem?, hg]
    rw [hget]
    simp only [swapFront, hg]
    cases hs : l.set j (l.headD y) with
    | nil =>
      have : (l.set j (l.headD y)).length = l.length := by simp
      rw [hs] at this
      simp at this
      omega
    | cons w ws => simp [List.set]

theorem addSymmStep_ok (p sp : ProofNode) (h : addSymmStep p = .ok sp) :
    ∃ a b, p.clause = [eqT a b]
      ∧ sp = .step (p.id ++ ".symm") p.depth [eqT b a] "symm" [p] [] [] none := by
  unfold addSymmStep at h
  split at h
  next c hc =>
    cases hm : matchTermEq c with
    | none => rw [hm] at h; exact Except.noConfusion h
    | some v =>
      obtain ⟨a, b⟩ := v
      rw [hm] at h
      simp only [Except.ok.injEq] at h
      refine ⟨a, b, ?_, h.symm⟩
      rw [hc, matchTermEq_some c a b hm]
  next => exact Except.noConfusion h

theorem applyFlips_ok_spec :
    ∀ (fl : List Nat) (ps qs : List ProofNode), fl.Nodup →
      applyFlips fl ps = .ok qs →
      qs.length = ps.length
      ∧ (∀ i, i ∉ fl → qs.getD i dnode = ps.getD i dnode)
      ∧ (∀ i ∈ fl, i < ps.length
          ∧ addSymmStep (ps.getD i dnode) = .ok (qs.getD i dnode)) := by
  intro fl
  induction fl with
  | nil =>
    intro ps qs _ h
    simp only [applyFlips, Except.ok.injEq] at h
    subst h
    exact ⟨rfl, fun _ _ => rfl, fun i hi => absurd hi (List.not_mem_nil i)⟩
  | cons i rest ih =>
    intro ps qs hnd h
    simp only [applyFlips] at h
    cases hg : ps.get? i with
    | none => rw [hg] at h; exact Except.noConfusion h
    | some p =>
      rw [hg] at h
      replace h : (do
          let sp ← addSymmStep p
          applyFlips rest (ps.set i sp)) = Except.ok qs := h
      obtain ⟨sp, hs, h⟩ := except_bind_eq_ok (addSymmStep p)
        (fun sp => applyFlips rest (ps.set i sp)) qs h
      · have hi : i < ps.length := by
          by_contra hge
          rw [List.get?_eq_none.mpr (by omega)] at hg
          exact Option.noConfusion hg
        have hnd' : rest.Nodup := (List.nodup_cons.mp hnd).2
        have hni : i ∉ rest := (List.nodup_cons.mp hnd).1
        obtain ⟨hlen, hout, hin⟩ := ih (ps.set i sp) qs hnd' h
        have hgetp : ps.getD i dnode = p := by
          simp [List.getD, ← List.get?_eq_getElem?, hg]
        have hg' : ps[i]? = some p := by rw [← List.get?_eq_getElem?]; exact hg
        have hsetD : ∀ j, j ≠ i → (ps.set i sp).getD j dnode = ps.getD j dnode := by
          intro j hj
          simp only [List.getD, List.get?_eq_getElem?]
          rw [List.getElem?_set_ne (Ne.symm hj)]
        have hsetI : (ps.set i sp).getD i dnode = sp := by
          simp [List.getD, List.getElem?_set_self', hg']
        refine ⟨by rw [hlen]; simp, ?_, ?_⟩
        · intro j hj
          have hj1 : j ≠ i := fun hc => hj (hc ▸ List.mem_cons_self i rest)
          have hj2 : j ∉ rest := fun hc => hj (List.mem_cons_of_mem i hc)
          rw [hout j hj2, hsetD j hj1]
        · intro j hj
          rcases List.mem_cons.mp hj with hj | hj
          · subst hj
            refine ⟨hi, ?_⟩
            rw [hout j hni, hsetI, hgetp, hs]
          · obtain ⟨hjl, hjs⟩ := hin j hj
            have hj1 : j ≠ i := fun hc => hni (hc ▸ hj)
            refine ⟨by simpa using hjl, ?_⟩
            rw [← hsetD j hj1]
            exact hjs

/- The main invariant of the chain-search loop: on success the
returned count bounds, the array lengths, the preserved processed
prefix, membership of the final premises in the inputs, the shape
and bounds of the flip indices, and the chain property of the newly
consumed equalities. -/

theorem fatcGo_ok_spec (c1 : Term) :
    ∀ (fuel : Nat) (t : Term) (eqsRest : List (Term × Term))
      (premsRest : List ProofNode) (accE : List (Term × Term))
      (accP : List ProofNode) (rb : Bool) (fl : List Nat) (rb' : Bool) (n : Nat)
      (fl' : List Nat) (eqsF : List (Term × Term)) (premsF : List ProofNode),
      premsRest.length = eqsRest.length →
      fatcGo c1 fuel t eqsRest premsRest accE accP rb fl
        = .ok (rb', n, fl', eqsF, premsF) →
      accE.length ≤ n
      ∧ n ≤ accE.length + eqsRest.length
      ∧ eqsF.length = accE.length + eqsRest.length
      ∧ premsF.length = accP.length + premsRest.length
      ∧ eqsF.take accE.length = accE.reverse
      ∧ premsF.take accP.length = accP.reverse
      ∧ (∀ x ∈ premsF, x ∈ accP ∨ x ∈ premsRest)
      ∧ (∃ fl₂, fl' = fl ++ fl₂
          ∧ (∀ i ∈ fl₂, accE.length ≤ i ∧ i < n)
          ∧ fl₂.Pairwise (· < ·)
          ∧ linksChainB t
              ((List.range (n - accE.length)).map (fun i =>
                let e := eqsF.getD (accE.length + i) (c1, c1)
                if (accE.length + i) ∈ fl₂ then (e.2, e.1) else e)) c1 = true) := by
  intro fuel
  induction fuel with
  | zero =>
    intro t eqsRest premsRest accE accP rb fl rb' n fl' eqsF premsF _ h
    exact Except.noConfusion h
  | succ fuel ih =>
    intro t eqsRest premsRest accE accP rb fl rb' n fl' eqsF premsF hlen h
    by_cases ht : t = c1
    · simp only [fatcGo, if_pos ht, Except.ok.injEq, Prod.mk.injEq] at h
      obtain ⟨-, hn, hfl, heqs, hprems⟩ := h
      subst hn
      subst hfl
      subst heqs
      subst hprems
      refine ⟨le_refl _, by omega, by simp, by simp, ?_, ?_, ?_, [], by simp, ?_, ?_, ?_⟩
      · exact List.take_left' (by simp)
      · exact List.take_left' (by simp)
      · intro x hx
        rcases List.mem_append.mp hx with hx | hx
        · exact Or.inl (List.mem_reverse.mp hx)
        · exact Or.inr hx
      · intro i hi
        exact absurd hi (List.not_mem_nil i)
      · exact List.Pairwise.nil
      · simp [linksChainB, ht]
    · cases hfl0 : findLinkFrom t eqsRest with
      | none => simp [fatcGo, ht, hfl0] at h
      | some v =>
        obtain ⟨j, nl, f⟩ := v
        simp only [fatcGo] at h
        rw [if_neg ht, hfl0] at h
        replace h : fatcGo c1 fuel nl (swapFront eqsRest j).tail
            (swapFront premsRest j).tail
            ((swapFront eqsRest j).headD (t, t) :: accE)
            ((swapFront premsRest j).headD (.assume "" t) :: accP)
            (rb || decide (j ≠ 0)) (if f then fl ++ [accE.length] else fl)
            = .ok (rb', n, fl', eqsF, premsF) := h
        have hj : j < eqsRest.length := findLinkFrom_some_lt t eqsRest j nl f hfl0
        have hjP : j < premsRest.length := by omega
        have lnE : (swapFront eqsRest j).tail.length = eqsRest.length - 1 := by
          rw [List.length_tail, swapFront_length]
        have lnP : (swapFront premsRest j).tail.length = premsRest.length - 1 := by
          rw [List.length_tail, swapFront_length]
        obtain ⟨h1, h2, h3, h4, h5, h6, h7, fl₂', hfleq, hflb, hflp, hchain⟩ :=
          ih nl (swapFront eqsRest j).tail (swapFront premsRest j).tail
            ((swapFront eqsRest j).headD (t, t) :: accE)
            ((swapFront premsRest j).headD (.assume "" t) :: accP)
            (rb || decide (j ≠ 0)) (if f then fl ++ [accE.length] else fl)
            rb' n fl' eqsF premsF (by omega) h
        simp only [List.length_cons] at h1 h2 h3 h4 h5 h6 hflb hchain
        have hgetj : eqsRest.getD j (t, t) = (if f then (nl, t) else (t, nl)) := by
          have := findLinkFrom_some_get t eqsRest j nl f hfl0
          simp [List.getD, ← List.get?_eq_getElem?, this]
        have hheadE : (swapFront eqsRest j).headD (t, t)
            = (if f then (nl, t) else (t, nl)) := by
          rw [swapFront_headD eqsRest j (t, t) hj, hgetj]
        have htakeE : eqsF.take accE.length = accE.reverse := by
          have hmin : eqsF.take accE.length
              = (eqsF.take (accE.length + 1)).take accE.length := by
            rw [List.take_take]
            congr 1
            omega
          rw [hmin, h5, List.reverse_cons]
          exact List.take_left' (by simp)
        have htakeP : premsF.take accP.length = accP.reverse := by
          have hmin : premsF.take accP.length
              = (premsF.take (accP.length + 1)).take accP.length := by
            rw [List.take_take]
            congr 1
            omega
          rw [hmin, h6, List.reverse_cons]
          exact List.take_left' (by simp)
        have hget0 : eqsF.getD accE.length (c1, c1)
            = (swapFront eqsRest j).headD (t, t) := by
          have hq1 : (eqsF.take (accE.length + 1)).get? accE.length
              = eqsF.get? accE.length := List.get?_take (by omega)
          have hq2 : (accE.reverse ++ [(swapFront eqsRest j).headD (t, t)]).get?
              accE.length = some ((swapFront eqsRest j).headD (t, t)) := by
            have := List.get?_concat_length accE.reverse
              ((swapFront eqsRest j).headD (t, t))
            simpa using this
          have : eqsF.get? accE.length
              = some ((swapFront eqsRest j).headD (t, t)) := by
            rw [← hq1, h5, List.reverse_cons, hq2]
          simp [List.getD, ← List.get?_eq_getElem?, this]
        have hp₀ : (swapFront premsRest j).headD (.assume "" t) ∈ premsRest := by
          apply mem_swapFront premsRest j
          cases hsw : swapFront premsRest j with
          | nil =>
            have := swapFront_length premsRest j
            rw [hsw] at this
            simp at this
            omega
          | cons w ws => simp
        have hmem : ∀ x ∈ premsF, x ∈ accP ∨ x ∈ premsRest := by
          intro x hx
          rcases h7 x hx with hx1 | hx2
          · rcases List.mem_cons.mp hx1 with hx1 | hx1
            · subst hx1
              exact Or.inr hp₀
            · exact Or.inl hx1
          · exact Or.inr (mem_swapFront premsRest j x (List.mem_of_mem_tail hx2))
        have hsub : n - accE.length = (n - (accE.length + 1)) + 1 := by omega
        by_cases hf : f
        · subst hf
          refine ⟨by omega, by omega, by omega, by omega, htakeE, htakeP, hmem,
            accE.length :: fl₂', ?_, ?_, ?_, ?_⟩
          · rw [if_pos rfl] at hfleq
            rw [hfleq, List.append_assoc]
            rfl
          · intro i hi
            rcases List.mem_cons.mp hi with hi | hi
            · subst hi
              exact ⟨le_refl _, by omega⟩
            · have := hflb i hi
              exact ⟨by omega, this.2⟩
          · refine List.Pairwise.cons ?_ hflp
            intro i hi
            have := hflb i hi
            omega
          · rw [hsub, List.range_succ_eq_map, List.map_cons, List.map_map]
            have hhead : (let e := eqsF.getD (accE.length + 0) (c1, c1)
                if (accE.length + 0) ∈ accE.length :: fl₂' then (e.2, e.1) else e)
                = (t, nl) := by
              simp only [Nat.add_zero]
              rw [hget0, hheadE]
              simp
            rw [hhead]
            have htail : (List.range (n - (accE.length + 1))).map ((fun i =>
                let e := eqsF.getD (accE.length + i) (c1, c1)
                if (accE.length + i) ∈ accE.length :: fl₂' then (e.2, e.1) else e)
                ∘ Nat.succ)
                = (List.range (n - (accE.length + 1))).map (fun i =>
                  let e := eqsF.getD (accE.length + 1 + i) (c1, c1)
                  if (accE.length + 1 + i) ∈ fl₂' then (e.2, e.1) else e) := by
              apply List.map_congr_left
              intro i _
              have hidx : accE.length + Nat.succ i = accE.length + 1 + i := by omega
              have hne : accE.length + 1 + i ≠ accE.length := by omega
              simp only [Function.comp_apply, hidx]
              by_cases hmem2 : accE.length + 1 + i ∈ fl₂'
              · simp [hmem2, hne]
              · simp [hmem2, hne]
            rw [htail]
            simp only [linksChainB, decide_eq_true_eq, Bool.and_eq_true, decide_eq_true]
            refine ⟨trivial, ?_⟩
            simpa using hchain
        · simp only [Bool.not_eq_true] at hf
          subst hf
          rw [if_neg (by simp)] at hfleq
          refine ⟨by omega, by omega, by omega, by omega, htakeE, htakeP, hmem,
            fl₂', hfleq, ?_, hflp, ?_⟩
          · intro i hi
            have := hflb i hi
            exact ⟨by omega, this.2⟩
          · rw [hsub, List.range_succ_eq_map, List.map_cons, List.map_map]
            have hnotm : accE.length ∉ fl₂' := by
              intro hc
              have := hflb accE.length hc
              omega
            have hhead : (let e := eqsF.getD (accE.length + 0) (c1, c1)
                if (accE.length + 0) ∈ fl₂' then (e.2, e.1) else e) = (t, nl) := by
              simp only [Nat.add_zero]
              rw [hget0, hheadE]
              simp [hnotm]
            rw [hhead]
            have htail : (List.range (n - (accE.length + 1))).map ((fun i =>
                let e := eqsF.getD (accE.length + i) (c1, c1)
                if (accE.length + i) ∈ fl₂' then (e.2, e.1) else e) ∘ Nat.succ)
                = (List.range (n - (accE.length + 1))).map (fun i =>
                  let e := eqsF.getD (accE.length + 1 + i) (c1, c1)
                  if (accE.length + 1 + i) ∈ fl₂' then (e.2, e.1) else e) := by
              apply List.map_congr_left
              intro i _
              have hidx : accE.length + Nat.succ i = accE.length + 1 + i := by omega
              simp only [Function.comp_apply, hidx]
            rw [htail]
            simp only [linksChainB, decide_eq_true_eq, Bool.and_eq_true, decide_eq_true]
            refine ⟨trivial, ?_⟩
            simpa using hchain

theorem collectPremiseEqualities_ok_length :
    ∀ (ps : List ProofNode) (eqs : List (Term × Term)),
      collectPremiseEqualities ps = .ok eqs → eqs.length = ps.length := by
  intro ps
  induction ps with
  | nil =>
    intro eqs h
    simp only [collectPremiseEqualities, Except.ok.injEq] at h
    subst h
    rfl
  | cons p rest ih =>
    intro eqs h
    simp only [collectPremiseEqualities] at h
    cases hc : p.clause with
    | nil => rw [hc] at h; exact Except.noConfusion h
    | cons c cs =>
      cases cs with
      | nil =>
        rw [hc] at h
        replace h : (match matchTermEq c with
            | some e => do
                let es ← collectPremiseEqualities rest
                Except.ok (e :: es)
            | none =>
                Except.error
                  (TransError.checker (CheckerError.termOfWrongForm "(= t u)" c)))
            = Except.ok eqs := h
        cases hm : matchTermEq c with
        | none => rw [hm] at h; exact Except.noConfusion h
        | some e =>
          rw [hm] at h
          replace h : (do
              let es ← collectPremiseEqualities rest
              Except.ok (e :: es)) = Except.ok eqs := h
          obtain ⟨es, hes, h⟩ := except_bind_eq_ok _ _ _ h
          have hl := ih es hes
          simp only [Except.ok.injEq] at h
          subst h
          simp [hl]
      | cons c2 cs2 => rw [hc] at h; exact Except.noConfusion h

/-- C1 (amended): for a `trans` step whose own clause is the unit
equality `(= t u)`, a successful elaboration keeps every field of the
step except the premises; the kept premises are the first `k` of the
reordered premise array, where `k` is the number of links the greedy
left-to-right chain search consumes (not the length of a shortest
chain — see the counterexample); the reordered premises all come from
the original premise list; the consumed equalities, each flipped at
the (strictly increasing) flip indices, chain from `t` to `u`; and
each premise at a flip index is replaced by a fresh `symm` step whose
id is `<original>.symm`, whose clause is the flipped equality, and
whose sole premise is the original premise, all other kept premises
being unchanged. -/
theorem c1_trans_greedy_chain :
    ∀ (stp : StepNode) (c t u : Term) (r : ProofNode),
      stp.clause = [c] → matchTermEq c = some (t, u) →
      trans stp = .ok r →
      ∃ (eqs0 : List (Term × Term)) (rb : Bool) (k : Nat) (flips : List Nat)
        (eqsF : List (Term × Term)) (premsF : List ProofNode)
        (nps : List ProofNode),
        collectPremiseEqualities stp.premises = .ok eqs0
        ∧ findAndTraceChain (t, u) eqs0 stp.premises
            = .ok (rb, k, flips, eqsF, premsF)
        ∧ r = ProofNode.ofStep { stp with premises := nps }
        ∧ nps.length = k
        ∧ k ≤ stp.premises.length
        ∧ premsF.length = stp.premises.length
        ∧ (∀ x ∈ premsF, x ∈ stp.premises)
        ∧ (∀ i ∈ flips, i < k)
        ∧ flips.Pairwise (· < ·)
        ∧ linksChainB t
            ((List.range k).map (fun i =>
              let e := eqsF.getD i (u, u)
              if i ∈ flips then (e.2, e.1) else e)) u = true
        ∧ (∀ i, i < k → i ∉ flips → nps.getD i dnode = premsF.getD i dnode)
        ∧ (∀ i ∈ flips, ∃ a b,
            (premsF.getD i dnode).clause = [eqT a b]
            ∧ nps.getD i dnode = .step ((premsF.getD i dnode).id ++ ".symm")
                (premsF.getD i dnode).depth [eqT b a] "symm"
                [premsF.getD i dnode] [] [] none) := by
  intro stp c t u r h1 h2 h
  obtain ⟨sid, sdepth, scl, srule, sprems, sargs, sdis, sprev⟩ := stp
  replace h1 : scl = [c] := h1
  subst h1
  replace h : (match matchTermEq c with
      | none =>
        Except.error (TransError.checker (CheckerError.termOfWrongForm "(= t u)" c))
      | some conclusion =>
        (collectPremiseEqualities sprems) >>= fun eqs =>
        (Except.mapError TransError.checker
          (findAndTraceChain conclusion eqs sprems)) >>= fun rr =>
        (applyFlips rr.2.2.1 (rr.2.2.2.2.take rr.2.1)) >>= fun newPremises =>
        Except.ok (ProofNode.ofStep
          (StepNode.mk sid sdepth [c] srule newPremises sargs sdis sprev)))
      = Except.ok r := h
  rw [h2] at h
  replace h : ((collectPremiseEqualities sprems) >>= fun eqs =>
      (Except.mapError TransError.checker
        (findAndTraceChain (t, u) eqs sprems)) >>= fun rr =>
      (applyFlips rr.2.2.1 (rr.2.2.2.2.take rr.2.1)) >>= fun newPremises =>
      Except.ok (ProofNode.ofStep
        (StepNode.mk sid sdepth [c] srule newPremises sargs sdis sprev)))
      = Except.ok r := h
  obtain ⟨eqs0, hcol, h⟩ := except_bind_eq_ok _ _ _ h
  obtain ⟨rr, hmap, h⟩ := except_bind_eq_ok _ _ _ h
  obtain ⟨rb, k, flips, eqsF, premsF⟩ := rr
  have hfatc := except_mapError_eq_ok _ _ _ hmap
  obtain ⟨nps, happ, h⟩ := except_bind_eq_ok _ _ _ h
  simp only [Except.ok.injEq] at h
  have hlen0 : eqs0.length = sprems.length :=
    collectPremiseEqualities_ok_length sprems eqs0 hcol
  obtain ⟨-, hkle, hlenE, hlenP, -, -, hmemF, fl₂, hfl2eq, hfl2b, hfl2p, hchain⟩ :=
    fatcGo_ok_spec u (eqs0.length + 1) t eqs0 sprems [] [] false []
      rb k flips eqsF premsF (by omega) hfatc
  simp only [List.length_nil, Nat.zero_add, Nat.sub_zero] at hkle hlenE hlenP hfl2b hchain
  simp only [List.nil_append] at hfl2eq
  subst hfl2eq
  have hkp : k ≤ premsF.length := by omega
  have hnd : flips.Nodup := List.Pairwise.imp (fun hlt => Nat.ne_of_lt hlt) hfl2p
  obtain ⟨hnlen, hout, hin⟩ := applyFlips_ok_spec flips (premsF.take k) nps hnd happ
  have htakeD : ∀ i, i < k → (premsF.take k).getD i dnode = premsF.getD i dnode := by
    intro i hi
    simp [List.getD, ← List.get?_eq_getElem?, List.get?_take hi]
  refine ⟨eqs0, rb, k, flips, eqsF, premsF, nps, hcol, hfatc, h.symm,
    ?_, by show k ≤ sprems.length; omega,
    by show premsF.length = sprems.length; omega, ?_, ?_, hfl2p, ?_, ?_, ?_⟩
  · rw [hnlen, List.length_take]
    omega
  · intro x hx
    rcases hmemF x hx with hx1 | hx1
    · exact absurd hx1 (List.not_mem_nil x)
    · exact hx1
  · intro i hi
    exact (hfl2b i hi).2
  · simpa using hchain
  · intro i hik hflip
    rw [hout i hflip, htakeD i hik]
  · intro i hi
    obtain ⟨hil, hsymm⟩ := hin i hi
    have hik : i < k := (hfl2b i hi).2
    rw [htakeD i hik] at hsymm
    obtain ⟨a, b, hcl, hsp⟩ := addSymmStep_ok _ _ hsymm
    exact ⟨a, b, hcl, hsp⟩

/-- C1 counterexample: premises realizing both a 1-chain and a
2-chain from `a` to `c`; the elaboration keeps 2 premises (the greedy
left-to-right consumption), although the shortest realizable chain
has length 1 — refuting the claim that the kept premise count is the
shortest chain length. -/
theorem c1_counterexample :
    trans c1Step = .ok (ProofNode.ofStep { c1Step with premises := c1UsedPremises })
    ∧ c1UsedPremises.length = 2
    ∧ realizesChainOfLength [(varA, varB), (varB, varC), (varA, varC)] varA varC 1 :=
  ⟨by decide, by decide,
    ⟨[(2, false)], by decide, by decide, by decide, by decide⟩⟩

/-- C1 witness: the amended theorem applied to the concrete
three-premise step. -/
theorem c1_trans_greedy_chain_witness :
    ∃ (eqs0 : List (Term × Term)) (rb : Bool) (k : Nat) (flips : List Nat)
      (eqsF : List (Term × Term)) (premsF : List ProofNode)
      (nps : List ProofNode),
      collectPremiseEqualities c1Step.premises = .ok eqs0
      ∧ findAndTraceChain (varA, varC) eqs0 c1Step.premises
          = .ok (rb, k, flips, eqsF, premsF)
      ∧ ProofNode.ofStep { c1Step with premises := c1UsedPremises }
          = ProofNode.ofStep { c1Step with premises := nps }
      ∧ nps.length = k
      ∧ k ≤ c1Step.premises.length
      ∧ premsF.length = c1Step.premises.length
      ∧ (∀ x ∈ premsF, x ∈ c1Step.premises)
      ∧ (∀ i ∈ flips, i < k)
      ∧ flips.Pairwise (· < ·)
      ∧ linksChainB varA
          ((List.range k).map (fun i =>
            let e := eqsF.getD i (varC, varC)
            if i ∈ flips then (e.2, e.1) else e)) varC = true
      ∧ (∀ i, i < k → i ∉ flips → nps.getD i dnode = premsF.getD i dnode)
      ∧ (∀ i ∈ flips, ∃ a b,
          (premsF.getD i dnode).clause = [eqT a b]
          ∧ nps.getD i dnode = .step ((premsF.getD i dnode).id ++ ".symm")
              (premsF.getD i dnode).depth [eqT b a] "symm"
              [premsF.getD i dnode] [] [] none) :=
  c1_trans_greedy_chain c1Step (eqT varA varC) varA varC
    (ProofNode.ofStep { c1Step with premises := c1UsedPremises })
    (by decide) (by decide) (by decide)

/- Helper lemmas for the idempotence of the binary-resolution
rewrite. -/

theorem noFireList_append :
    ∀ (a b : List ProofCommand),
      noFireList (a ++ b) = (noFireList a && noFireList b)
  | [], b => by simp [noFireList]
  | c :: a, b => by
      simp [noFireList, noFireList_append a b, Bool.and_assoc]

theorem noFireSteps :
    ∀ (steps : List ProofStep), (∀ st ∈ steps, st.premises.length = 2) →
      noFireList (steps.map .step) = true
  | [] => by intro _; simp [noFireList]
  | st :: rest => by
      intro h
      have h2 : st.premises.length = 2 := h st (by simp)
      have hr := noFireSteps rest (fun s hs => h s (by simp [hs]))
      simp [noFireList, noFireCmd, hr, h2]

theorem binarifySingle_two (remap : Nat × Nat → Nat × Nat) (d ns : Nat)
    (s : ProofStep) (pcs : List (List Term)) (steps : List ProofStep)
    (h : binarifySingleResolution remap d ns s pcs = some steps) :
    ∀ st ∈ steps, st.premises.length = 2 := by
  cases hps : s.premises with
  | nil =>
    unfold binarifySingleResolution at h
    rw [hps] at h
    cases pcs with
    | nil =>
      replace h : (none : Option (List ProofStep)) = some steps := h
      exact Option.noConfusion h
    | cons c0 crest =>
      replace h : (none : Option (List ProofStep)) = some steps := h
      exact Option.noConfusion h
  | cons p0 prest =>
    cases hpc : pcs with
    | nil =>
      unfold binarifySingleResolution at h
      rw [hps, hpc] at h
      replace h : (none : Option (List ProofStep)) = some steps := h
      exact Option.noConfusion h
    | cons c0 crest =>
      unfold binarifySingleResolution at h
      rw [hps, hpc] at h
      exact fun st hst =>
        ((binarifySingleGo_shape (prest.zip crest) remap s.id d ns s.args c0 p0 0
          steps h).2.1 st hst).2

theorem getD_eq_nil_of_all_nil (env : List (List (Nat × Nat))) (i : Nat)
    (hnil : ∀ l ∈ env, l = []) : env.getD i [] = [] := by
  cases hg : env.get? i with
  | none => simp [List.getD, ← List.get?_eq_getElem?, hg]
  | some l =>
    have := hnil l (List.get?_mem hg)
    simp [List.getD, ← List.get?_eq_getElem?, hg, this]

theorem mapIndexSpec_id (env : List (List (Nat × Nat)))
    (hnil : ∀ l ∈ env, l = []) : mapIndexSpec env = fun r => r := by
  funext r
  unfold mapIndexSpec
  rw [getD_eq_nil_of_all_nil env r.1 hnil]
  simp [extraAt]

/- Every command the rewrite emits is one it can no longer fire on. -/

mutual

theorem binarifyCmd_noFire :
    ∀ (cmd : ProofCommand), ∀ (stack : List (List ProofCommand))
      (exps : List (List (Nat × Nat))) (oldPos extra : Nat)
      (cur : List (Nat × Nat)) (out : List ProofCommand) (e' : Nat)
      (c' : List (Nat × Nat)),
      binarifyCmd stack exps cmd oldPos extra cur = some (out, e', c') →
      noFireList out = true
  | .assume i t => by
      intro stack exps oldPos extra cur out e' c' h
      simp only [binarifyCmd, Option.some_inj, Prod.mk.injEq] at h
      obtain ⟨h1, -, -⟩ := h
      subst h1
      simp [noFireList, noFireCmd]
  | .step s => by
      intro stack exps oldPos extra cur out e' c' h
      simp only [binarifyCmd] at h
      by_cases hc : s.rule = "resolution" ∧ s.premises.length > 2
      · rw [if_pos hc] at h
        cases hbs : binarifySingleResolution (mapIndexSpec (exps ++ [cur]))
            exps.length (oldPos + extra) s
            (s.premises.map (getPremiseClause stack)) with
        | none => rw [hbs] at h; exact Option.noConfusion h
        | some steps =>
          rw [hbs] at h
          replace h : some ((steps.map ProofCommand.step : List ProofCommand),
              extra + (s.premises.length - 2),
              cur ++ [(oldPos, s.premises.length - 2)]) = some (out, e', c') := h
          simp only [Option.some_inj, Prod.mk.injEq] at h
          obtain ⟨h1, -, -⟩ := h
          subst h1
          exact noFireSteps steps (binarifySingle_two _ _ _ s _ steps hbs)
      · rw [if_neg hc] at h
        simp only [Option.some_inj, Prod.mk.injEq] at h
        obtain ⟨h1, -, -⟩ := h
        subst h1
        by_cases h1 : s.rule = "resolution"
        · have h2 : ¬(s.premises.length > 2) := fun hg => hc ⟨h1, hg⟩
          simp [noFireList, noFireCmd, h1, h2]
        · simp [noFireList, noFireCmd, h1]
  | .subproof cmds aArgs vArgs => by
      intro stack exps oldPos extra cur out e' c' h
      simp only [binarifyCmd] at h
      cases hin : binarifyList (stack ++ [cmds]) (exps ++ [cur]) cmds 0 0 [] with
      | none => rw [hin] at h; exact Option.noConfusion h
      | some inner =>
        rw [hin] at h
        replace h : some (([ProofCommand.subproof inner aArgs vArgs]
            : List ProofCommand), extra, cur) = some (out, e', c') := h
        simp only [Option.some_inj, Prod.mk.injEq] at h
        obtain ⟨h1, -, -⟩ := h
        subst h1
        have hi := binarifyList_noFire cmds (stack ++ [cmds]) (exps ++ [cur])
          0 0 [] inner hin
        simp [noFireList, noFireCmd, hi]

theorem binarifyList_noFire :
    ∀ (cmds : List ProofCommand), ∀ (stack : List (List ProofCommand))
      (exps : List (List (Nat × Nat))) (oldPos extra : Nat)
      (cur : List (Nat × Nat)) (out : List ProofCommand),
      binarifyList stack exps cmds oldPos extra cur = some out →
      noFireList out = true
  | [] => by
      intro stack exps oldPos extra cur out h
      simp only [binarifyList, Option.some_inj] at h
      subst h
      simp [noFireList]
  | cmd :: rest => by
      intro stack exps oldPos extra cur out h
      simp only [binarifyList] at h
      cases hc : binarifyCmd stack exps cmd oldPos extra cur with
      | none => rw [hc] at h; exact Option.noConfusion h
      | some v =>
        obtain ⟨o1, e1, c1⟩ := v
        rw [hc] at h
        replace h : (binarifyList stack exps rest (oldPos + 1) e1 c1).map
            (o1 ++ ·) = some out := h
        cases hr : binarifyList stack exps rest (oldPos + 1) e1 c1 with
        | none => rw [hr] at h; exact Option.noConfusion h
        | some orest =>
          rw [hr] at h
          simp only [Option.map_some', Option.some_inj] at h
          subst h
          rw [noFireList_append]
          have hA := binarifyCmd_noFire cmd stack exps oldPos extra cur o1 e1 c1 hc
          have hB := binarifyList_noFire rest stack exps (oldPos + 1) e1 c1 orest hr
          simp [hA, hB]

end

/- On a proof the rewrite cannot fire on, and with empty expansion
records, the rewrite is the identity. -/

mutual

theorem binarifyCmd_id :
    ∀ (cmd : ProofCommand), ∀ (stack : List (List ProofCommand))
      (exps : List (List (Nat × Nat))) (oldPos extra : Nat),
      (∀ l ∈ exps, l = []) → noFireCmd cmd = true →
      binarifyCmd stack exps cmd oldPos extra [] = some ([cmd], extra, [])
  | .assume i t => by
      intro stack exps oldPos extra hnil hnf
      simp [binarifyCmd]
  | .step s => by
      intro stack exps oldPos extra hnil hnf
      have hc : ¬(s.rule = "resolution" ∧ s.premises.length > 2) := by
        intro hand
        simp [noFireCmd, hand.1, hand.2] at hnf
      have hid : mapIndexSpec (exps ++ [[]]) = fun r => r := by
        apply mapIndexSpec_id
        intro l hl
        rcases List.mem_append.mp hl with h | h
        · exact hnil l h
        · simpa using h
      simp only [binarifyCmd]
      rw [if_neg hc, hid]
      simp [List.map_id']
  | .subproof cmds aArgs vArgs => by
      intro stack exps oldPos extra hnil hnf
      have hnfl : noFireList cmds = true := by simpa [noFireCmd] using hnf
      have hnil' : ∀ l ∈ exps ++ [([] : List (Nat × Nat))], l = [] := by
        intro l hl
        rcases List.mem_append.mp hl with h | h
        · exact hnil l h
        · simpa using h
      simp only [binarifyCmd]
      rw [binarifyList_id cmds (stack ++ [cmds]) (exps ++ [[]]) 0 0 hnil' hnfl]

theorem binarifyList_id :
    ∀ (cmds : List ProofCommand), ∀ (stack : List (List ProofCommand))
      (exps : List (List (Nat × Nat))) (oldPos extra : Nat),
      (∀ l ∈ exps, l = []) → noFireList cmds = true →
      binarifyList stack exps cmds oldPos extra [] = some cmds
  | [] => by
      intro stack exps oldPos extra hnil hnf
      simp [binarifyList]
  | cmd :: rest => by
      intro stack exps oldPos extra hnil hnf
      simp only [noFireList, Bool.and_eq_true] at hnf
      simp only [binarifyList]
      rw [binarifyCmd_id cmd stack exps oldPos extra hnil hnf.1]
      show (binarifyList stack exps rest (oldPos + 1) extra []).map
        ([cmd] ++ ·) = some (cmd :: rest)
      rw [binarifyList_id rest stack exps (oldPos + 1) extra hnil hnf.2]
      simp

end

/-- C6: `binarify_resolutions` is idempotent: every command it emits
is either untouched (not a `resolution` step with more than two
premises) or a binary `resolution` step, so a second pass finds
nothing to fire on, records no expansions, remaps every premise
reference by the identity, and reproduces its input exactly. -/
theorem c6_binarify_idempotent :
    ∀ (p q : List ProofCommand),
      binarifyResolutions p = some q → binarifyResolutions q = some q := by
  intro p q h
  unfold binarifyResolutions at h ⊢
  have hnf : noFireList q = true := binarifyList_noFire p [p] [] 0 0 [] q h
  exact binarifyList_id q [q] [] 0 0 (by simp) hnf

/-- C6 witness: the expanded proof of the source's unit test is a
fixed point of the rewrite. -/
theorem c6_binarify_idempotent_witness :
    binarifyResolutions case1Out = some case1Out :=
  c6_binarify_idempotent case1Proof case1Out (by decide)

/- Helper lemmas for the elaborator traversal. -/

theorem alookup_eq_none_iff {A B : Type} [DecidableEq A] :
    ∀ (l : List (A × B)) (a : A), alookup l a = none ↔ a ∉ l.map Prod.fst
  | [], a => by simp [alookup]
  | (k, v) :: rest, a => by
      by_cases h : a = k
      · simp [alookup, h]
      · simp [alookup, h, alookup_eq_none_iff rest a]

theorem alookup_mem {A B : Type} [DecidableEq A] :
    ∀ (l : List (A × B)) (a : A) (b : B), alookup l a = some b → (a, b) ∈ l
  | [], a, b => by simp [alookup]
  | (k, v) :: rest, a, b => by
      intro hl
      unfold alookup at hl
      by_cases h : a = k
      · rw [if_pos h] at hl
        simp only [Option.some_inj] at hl
        subst h
        subst hl
        exact List.mem_cons_self _ _
      · rw [if_neg h] at hl
        exact List.mem_cons_of_mem _ (alookup_mem rest a b hl)

theorem cacheAll_strip (cache : List (ProofNode × ProofNode))
    (hC : ∀ e ∈ cache, stripOutbound e.2 = stripOutbound e.1) :
    ∀ (ps ps' : List ProofNode), cacheAll cache ps = some ps' →
      stripOutboundList ps' = stripOutboundList ps
  | [], ps' => by
      intro h
      simp only [cacheAll, Option.some_inj] at h
      subst h
      rfl
  | p :: ps, ps' => by
      intro h
      simp only [cacheAll] at h
      cases h1 : alookup cache p with
      | none =>
        rw [h1] at h
        replace h : (none : Option (List ProofNode)) = some ps' := h
        exact Option.noConfusion h
      | some v =>
        rw [h1] at h
        cases h2 : cacheAll cache ps with
        | none =>
          rw [h2] at h
          replace h : (none : Option (List ProofNode)) = some ps' := h
          exact Option.noConfusion h
        | some vs =>
          rw [h2] at h
          replace h : some (v :: vs) = some ps' := h
          simp only [Option.some_inj] at h
          subst h
          have hv : stripOutbound v = stripOutbound p :=
            hC (p, v) (alookup_mem cache p v h1)
          have hrec := cacheAll_strip cache hC ps vs h2
          simp only [stripOutboundList]
          rw [hv, hrec]

theorem cacheOpt_strip (cache : List (ProofNode × ProofNode))
    (hC : ∀ e ∈ cache, stripOutbound e.2 = stripOutbound e.1) :
    ∀ (op op' : Option ProofNode), cacheOpt cache op = some op' →
      stripOutboundOpt op' = stripOutboundOpt op
  | none, op' => by
      intro h
      simp only [cacheOpt, Option.some_inj] at h
      subst h
      rfl
  | some p, op' => by
      intro h
      simp only [cacheOpt] at h
      cases h1 : alookup cache p with
      | none =>
        rw [h1] at h
        replace h : (none : Option (Option ProofNode)) = some op' := h
        exact Option.noConfusion h
      | some v =>
        rw [h1] at h
        replace h : some (some v) = some op' := h
        simp only [Option.some_inj] at h
        subst h
        have hv : stripOutbound v = stripOutbound p :=
          hC (p, v) (alookup_mem cache p v h1)
        simp only [stripOutboundOpt]
        rw [hv]

theorem mutRecord_inv (st : MutState) (node mutated : ProofNode) (logCall : Bool)
    (hC : ∀ e ∈ st.cache, stripOutbound e.2 = stripOutbound e.1)
    (hK : (st.cache.map Prod.fst).Nodup)
    (hL1 : ∀ x ∈ st.calls, x ∈ st.cache.map Prod.fst)
    (hL2 : st.calls.Nodup)
    (hnew : stripOutbound mutated = stripOutbound node)
    (hnot : node ∉ st.cache.map Prod.fst) :
    (∀ e ∈ (mutRecord st node mutated logCall).cache,
      stripOutbound e.2 = stripOutbound e.1)
    ∧ ((mutRecord st node mutated logCall).cache.map Prod.fst).Nodup
    ∧ (∀ x ∈ (mutRecord st node mutated logCall).calls,
        x ∈ (mutRecord st node mutated logCall).cache.map Prod.fst)
    ∧ (mutRecord st node mutated logCall).calls.Nodup := by
  refine ⟨?_, ?_, ?_, ?_⟩
  · intro e he
    simp only [mutRecord, List.mem_cons] at he
    rcases he with he | he
    · subst he
      exact hnew
    · exact hC e he
  · simp only [mutRecord, List.map_cons]
    exact List.nodup_cons.mpr ⟨hnot, hK⟩
  · intro x hx
    simp only [mutRecord] at hx
    simp only [mutRecord, List.map_cons, List.mem_cons]
    by_cases hl : logCall
    · rw [if_pos hl] at hx
      rcases List.mem_cons.mp hx with h | h
      · exact Or.inl h
      · exact Or.inr (hL1 x h)
    · rw [if_neg hl] at hx
      exact Or.inr (hL1 x hx)
  · simp only [mutRecord]
    by_cases hl : logCall
    · rw [if_pos hl]
      exact List.nodup_cons.mpr ⟨fun hc => hnot (hL1 node hc), hL2⟩
    · rw [if_neg hl]
      exact hL2

/- The loop invariant of the traversal: cached values agree with
their keys up to recorded outbound premises, cache keys are distinct,
and the rewrite-call log stays duplicate-free and within the cache
keys. -/
theorem mutateLoop_inv (f : ProofNode → ProofNode) (hf : ∀ n, f n = n) :
    ∀ (fuel : Nat) (todo : List (ProofNode × Bool)) (st st' : MutState),
      mutateLoop f fuel todo st = some st' →
      (∀ e ∈ st.cache, stripOutbound e.2 = stripOutbound e.1) →
      (st.cache.map Prod.fst).Nodup →
      (∀ x ∈ st.calls, x ∈ st.cache.map Prod.fst) →
      st.calls.Nodup →
      (∀ e ∈ st'.cache, stripOutbound e.2 = stripOutbound e.1)
      ∧ (st'.cache.map Prod.fst).Nodup
      ∧ (∀ x ∈ st'.calls, x ∈ st'.cache.map Prod.fst)
      ∧ st'.calls.Nodup := by
  intro fuel
  induction fuel with
  | zero =>
    intro todo st st' h
    exact Option.noConfusion h
  | succ fuel ih =>
    intro todo st st' h hC hK hL1 hL2
    cases todo with
    | nil =>
      replace h : some st = some st' := h
      simp only [Option.some_inj] at h
      subst h
      exact ⟨hC, hK, hL1, hL2⟩
    | cons nb todo =>
      obtain ⟨node, isDone⟩ := nb
      simp only [mutateLoop] at h
      by_cases hg : (alookup st.cache node).isSome
      · rw [if_pos hg] at h
        exact ih todo st st' h hC hK hL1 hL2
      · rw [if_neg hg] at h
        have hnot : node ∉ st.cache.map Prod.fst := by
          rw [← alookup_eq_none_iff st.cache node]
          exact Option.not_isSome_iff_eq_none.mp hg
        cases node with
        | assume i t =>
          replace h : mutateLoop f fuel todo
              (mutRecord st (.assume i t) (f (.assume i t)) true) = some st' := h
          have hm := mutRecord_inv st (.assume i t) (f (.assume i t)) true
            hC hK hL1 hL2 (by rw [hf]) hnot
          exact ih _ _ _ h hm.1 hm.2.1 hm.2.2.1 hm.2.2.2
        | step i d c r ps as dis prev =>
          cases isDone with
          | false =>
            replace h : mutateLoop f fuel
                ((((ps ++ dis ++ prev.toList).filter
                    (fun p => (alookup st.cache p).isNone)).map (fun p => (p, false)))
                  ++ (ProofNode.step i d c r ps as dis prev, true) :: todo) st
                = some st' := h
            exact ih _ _ _ h hC hK hL1 hL2
          | true =>
            replace h : (match cacheAll st.cache ps, cacheAll st.cache dis,
                cacheOpt st.cache prev with
              | some ps', some dis', some prev' =>
                  mutateLoop f fuel todo
                    (mutRecord st (.step i d c r ps as dis prev)
                      (f (.step i d c r ps' as dis' prev')) true)
              | _, _, _ => none) = some st' := h
            cases h1 : cacheAll st.cache ps with
            | none =>
              rw [h1] at h
              replace h : (none : Option MutState) = some st' := h
              exact Option.noConfusion h
            | some ps' =>
              rw [h1] at h
              cases h2 : cacheAll st.cache dis with
              | none =>
                rw [h2] at h
                replace h : (none : Option MutState) = some st' := h
                exact Option.noConfusion h
              | some dis' =>
                rw [h2] at h
                cases h3 : cacheOpt st.cache prev with
                | none =>
                  rw [h3] at h
                  replace h : (none : Option MutState) = some st' := h
                  exact Option.noConfusion h
                | some prev' =>
                  rw [h3] at h
                  replace h : mutateLoop f fuel todo
                      (mutRecord st (.step i d c r ps as dis prev)
                        (f (.step i d c r ps' as dis' prev')) true) = some st' := h
                  have hstrip : stripOutbound (f (.step i d c r ps' as dis' prev'))
                      = stripOutbound (.step i d c r ps as dis prev) := by
                    rw [hf]
                    simp only [stripOutbound]
                    rw [cacheAll_strip st.cache hC ps ps' h1,
                      cacheAll_strip st.cache hC dis dis' h2,
                      cacheOpt_strip st.cache hC prev prev' h3]
                  have hm := mutRecord_inv st (.step i d c r ps as dis prev)
                    (f (.step i d c r ps' as dis' prev')) true hC hK hL1 hL2 hstrip hnot
                  exact ih _ _ _ h hm.1 hm.2.1 hm.2.2.1 hm.2.2.2
        | subproof last as ob =>
          cases isDone with
          | false =>
            replace h : (if ProofNode.subproof last as ob ∈ st.didOutbound then
                mutateLoop f fuel
                  ((last, false) :: (ProofNode.subproof last as ob, true) :: todo)
                  { st with obStack := [] :: st.obStack }
              else
                mutateLoop f fuel (ob.reverse.map (fun p => (p, false))
                    ++ (ProofNode.subproof last as ob, false) :: todo)
                  { st with didOutbound :=
                      ProofNode.subproof last as ob :: st.didOutbound })
                = some st' := h
            by_cases hd : ProofNode.subproof last as ob ∈ st.didOutbound
            · rw [if_pos hd] at h
              exact ih _ _ _ h hC hK hL1 hL2
            · rw [if_neg hd] at h
              exact ih _ _ _ h hC hK hL1 hL2
          | true =>
            replace h : (match st.obStack with
              | frame :: restFrames =>
                (match alookup st.cache last with
                 | some last' =>
                    mutateLoop f fuel todo
                      (mutRecord { st with obStack := restFrames }
                        (ProofNode.subproof last as ob)
                        (.subproof last' as frame) false)
                 | none => none)
              | [] => none) = some st' := h
            cases hs : st.obStack with
            | nil =>
              rw [hs] at h
              replace h : (none : Option MutState) = some st' := h
              exact Option.noConfusion h
            | cons frame restFrames =>
              rw [hs] at h
              cases h1 : alookup st.cache last with
              | none =>
                rw [h1] at h
                replace h : (none : Option MutState) = some st' := h
                exact Option.noConfusion h
              | some last' =>
                rw [h1] at h
                replace h : mutateLoop f fuel todo
                    (mutRecord { st with obStack := restFrames }
                      (ProofNode.subproof last as ob)
                      (.subproof last' as frame) false) = some st' := h
                have hl : stripOutbound last' = stripOutbound last :=
                  hC (last, last') (alookup_mem st.cache last last' h1)
                have hstrip : stripOutbound (ProofNode.subproof last' as frame)
                    = stripOutbound (ProofNode.subproof last as ob) := by
                  simp only [stripOutbound, hl]
                have hm := mutRecord_inv { st with obStack := restFrames }
                  (ProofNode.subproof last as ob) (.subproof last' as frame) false
                  hC hK hL1 hL2 hstrip hnot
                exact ih _ _ _ h hm.1 hm.2.1 hm.2.2.1 hm.2.2.2

/-- C7 (amended): running the elaborator traversal with a no-op
rewrite returns a proof graph equal to the input up to the recorded
outbound-premise lists of subproofs (the traversal recomputes those
in traversal order — see the counterexample — so they can be
reordered), and during any traversal the rewrite function is applied
to each distinct node at most once regardless of sharing: the call
log is duplicate-free and every logged node is a cache key. -/
theorem c7_mutate_identity_and_memo :
    ∀ (f : ProofNode → ProofNode) (fuel : Nat) (root : ProofNode),
      (∀ n, f n = n) →
      (∀ r, mutateResult f fuel root = some r →
        stripOutbound r = stripOutbound root)
      ∧ (∀ st', mutateLoop f fuel [(root, false)] mutInit = some st' →
          st'.calls.Nodup ∧ ∀ x ∈ st'.calls, x ∈ st'.cache.map Prod.fst) := by
  intro f fuel root hf
  constructor
  · intro r hr
    unfold mutateResult at hr
    cases hl : mutateLoop f fuel [(root, false)] mutInit with
    | none => rw [hl] at hr; exact Option.noConfusion hr
    | some st =>
      rw [hl] at hr
      replace hr : alookup st.cache root = some r := hr
      obtain ⟨hC, -, -, -⟩ := mutateLoop_inv f hf fuel [(root, false)] mutInit st hl
        (by simp [mutInit]) (by simp [mutInit]) (by simp [mutInit]) (by simp [mutInit])
      exact hC (root, r) (alookup_mem st.cache root r hr)
  · intro st' hl
    obtain ⟨-, -, hL1, hL2⟩ := mutateLoop_inv f hf fuel [(root, false)] mutInit st' hl
      (by simp [mutInit]) (by simp [mutInit]) (by simp [mutInit]) (by simp [mutInit])
    exact ⟨hL2, hL1⟩

/-- C7 counterexample: the identity traversal of `c7root` succeeds
but returns a node that is NOT pointwise equal to the input — the
subproof's outbound premises, stored as `[p2, p1]`, come back
recomputed in traversal order as `[p1, p2]`; stripped of the recorded
outbound lists the two agree. -/
theorem c7_counterexample :
    mutateResult (fun n => n) 30 c7root = some c7expected
    ∧ c7expected ≠ c7root
    ∧ stripOutbound c7expected = stripOutbound c7root := by decide

/-- C7 witness: the amended theorem applied to the diamond-shaped
graph `c7q4`, whose shared node `q1` is reached twice. -/
theorem c7_mutate_identity_and_memo_witness :
    (∀ r, mutateResult (fun n => n) 30 c7q4 = some r →
      stripOutbound r = stripOutbound c7q4)
    ∧ (∀ st', mutateLoop (fun n => n) 30 [(c7q4, false)] mutInit = some st' →
        st'.calls.Nodup ∧ ∀ x ∈ st'.calls, x ∈ st'.cache.map Prod.fst) :=
  c7_mutate_identity_and_memo (fun n => n) 30 c7q4 (fun _ => rfl)

end Carcara
